import Mathlib

/-!
# MultiScaleGolden: the reference multi-scale CLEAN deconvolver

A shallow embedding of `src/MultiScaleGolden.cc` and theorems about it.

Modelling conventions.

* Samples (`float`) are exact rationals `ℚ`.
* `int` and `size_t` values are mathematical integers: `Int`, and `Nat` where the
  source holds an index or a width.  The one machine effect the source relies on at
  ordinary sizes is the wrap-around of an unsigned (`size_t`) expression whose exact
  value is negative; `asSizeT` makes it explicit wherever the source computes in
  `size_t`.  This is exact for images of at most `2 ^ 31` samples.
* The namespace `LP64` gives `idxToPos`, `subtractPSF` and the major loop once more, with
  the narrowing of `size_t` values to 32-bit `int` written out; it is what the source does
  on images of any size, and it is proved equal to the first version on images of at most
  `2 ^ 31` samples.
* `std::vector<float>` is `List ℚ`; `v[i]` read is `v.getD i 0`, `v[i] = e` is
  `v.set i e`.  The indices a loop uses are also exposed as lists
  (`subtractPSFAccesses`), so that range properties can be stated about them.
* The tunables `g_niters`, `g_gain`, `g_threshold` of `Parameters.h` are parameters.
* Console output is not modelled.
-/

namespace MultiScaleGolden

/-! ## Indexing -/

/-- Modelled from the spec: the `Position` struct of `MultiScaleGolden.h` (not among
the sources), an integer pair `(x, y)` built by `Position(x, y)`. -/
structure Position where
  x : Int
  y : Int
deriving DecidableEq, Repr

/-- Value of a `size_t` expression whose exact integer value is `t`: a negative value
wraps around to `t + 2 ^ 64`. -/
def asSizeT (t : Int) : Int := if t < 0 then t + 2 ^ 64 else t

/-- `idxToPos(idx, width)`: `y = idx / width`, `x = idx % width`, both computed in
`size_t` (the `int idx` is converted to the type of `width`). -/
def idxToPos (idx : Int) (width : Nat) : Position :=
  let y : Int := asSizeT idx / (width : Int)
  let x : Int := asSizeT idx % (width : Int)
  ⟨x, y⟩

/-- `posToIdx(width, pos)`: `(pos.y * width) + pos.x`, a `size_t`. -/
def posToIdx (width : Nat) (pos : Position) : Nat :=
  (asSizeT (pos.y * (width : Int) + pos.x)).toNat

/-! ## Peak search -/

/-- The loop of `findPeak`, at index `i` with running `(maxVal, maxPos)`. -/
def findPeakLoop : List ℚ → Nat → ℚ × Nat → ℚ × Nat
  | [], _, acc => acc
  | v :: rest, i, acc =>
      findPeakLoop rest (i + 1) (if |v| > |acc.1| then (v, i) else acc)

/-- `findPeak(image, maxVal, maxPos)`: returns `(maxVal, maxPos)`. -/
def findPeak (image : List ℚ) : ℚ × Nat := findPeakLoop image 0 (0, 0)

/-! ## PSF subtraction -/

/-- The values `lo, lo + 1, ..., hi` of `for (int v = lo; v <= hi; ++v)`. -/
def loopRange (lo hi : Int) : List Int :=
  (List.range (hi + 1 - lo).toNat).map (fun (k : Nat) => lo + (k : Int))

/-- The index pairs `(target index, psf index)` used by the double loop of
`subtractPSF`, in the order of execution. -/
def subtractPSFAccesses (psfWidth residualWidth peakPos psfPeakPos : Nat) :
    List (Nat × Nat) :=
  let rx := (idxToPos peakPos residualWidth).x
  let ry := (idxToPos peakPos residualWidth).y
  let px := (idxToPos psfPeakPos psfWidth).x
  let py := (idxToPos psfPeakPos psfWidth).y
  let diffx := rx - px
  let diffy := ry - py
  let startx := max 0 (rx - px)
  let starty := max 0 (ry - py)
  let stopx := min (asSizeT ((residualWidth : Int) - 1))
    (asSizeT (rx + ((psfWidth : Int) - px - 1)))
  let stopy := min (asSizeT ((residualWidth : Int) - 1))
    (asSizeT (ry + ((psfWidth : Int) - py - 1)))
  (loopRange starty stopy).flatMap fun y =>
    (loopRange startx stopx).map fun x =>
      (posToIdx residualWidth ⟨x, y⟩, posToIdx psfWidth ⟨x - diffx, y - diffy⟩)

/-- The loop body of `subtractPSF`:
`residual[t] -= gain * absPeakVal * psf[q]`. -/
def subtractStep (psf : List ℚ) (absPeakVal gain : ℚ) (residual : List ℚ)
    (a : Nat × Nat) : List ℚ :=
  residual.set a.1 (residual.getD a.1 0 - gain * absPeakVal * psf.getD a.2 0)

/-- `subtractPSF(psf, psfWidth, residual, residualWidth, peakPos, psfPeakPos,
absPeakVal, gain)`: returns the updated `residual`. -/
def subtractPSF (psf : List ℚ) (psfWidth : Nat) (residual : List ℚ)
    (residualWidth : Nat) (peakPos psfPeakPos : Nat) (absPeakVal gain : ℚ) : List ℚ :=
  (subtractPSFAccesses psfWidth residualWidth peakPos psfPeakPos).foldl
    (subtractStep psf absPeakVal gain) residual

/-! ## The major loop -/

/-- The running selection of the scale scan. -/
structure PeakSel where
  absPeakVal : ℚ
  absPeakPos : Nat
  absPeakScale : Nat
deriving DecidableEq, Repr

/-- The scale scan `for (size_t s = 0; s < n_scale; s++)` of one iteration, over the
remaining scales: a signed comparison updates the selection, then the threshold test
leaves the scan. -/
def scanScales (g_threshold : ℚ) (residual : List (List ℚ)) :
    List Nat → PeakSel → PeakSel
  | [], sel => sel
  | s :: rest, sel =>
      let this := findPeak (residual.getD s [])
      let sel1 : PeakSel :=
        if this.1 > sel.absPeakVal then ⟨this.1, this.2, s⟩ else sel
      if |sel1.absPeakVal| < g_threshold then sel1
      else scanScales g_threshold residual rest sel1

/-- The peak `(absPeakVal, absPeakPos, absPeakScale)` selected by one iteration. -/
def selectPeak (n_scale : Nat) (g_threshold : ℚ) (residual : List (List ℚ)) : PeakSel :=
  scanScales g_threshold residual (List.range n_scale) ⟨0, 0, 0⟩

/-- The residual loop of one iteration: residual `s` gets
`cross[absPeakScale * n_scale + s]` subtracted, anchored at `psfPeakPos[s]`. -/
def updateResiduals (n_scale : Nat) (cross : List (List ℚ)) (crossWidth dirtyWidth : Nat)
    (psfPeakPos : List Nat) (g_gain : ℚ) (sel : PeakSel)
    (residual : List (List ℚ)) : List (List ℚ) :=
  (List.range n_scale).foldl
    (fun res s =>
      res.set s (subtractPSF (cross.getD (sel.absPeakScale * n_scale + s) []) crossWidth
        (res.getD s []) dirtyWidth sel.absPeakPos (psfPeakPos.getD s 0)
        sel.absPeakVal g_gain))
    residual

/-- One pass of the major loop on `(model, residual)`. -/
def iterate (n_scale : Nat) (g_gain g_threshold : ℚ) (dirtyWidth : Nat)
    (psf : List (List ℚ)) (psfWidth : Nat) (cross : List (List ℚ)) (crossWidth : Nat)
    (psfPeakPos : List Nat) (st : List ℚ × List (List ℚ)) : List ℚ × List (List ℚ) :=
  let sel := selectPeak n_scale g_threshold st.2
  let model := subtractPSF (psf.getD sel.absPeakScale []) psfWidth st.1 dirtyWidth
    sel.absPeakPos (psfPeakPos.getD sel.absPeakScale 0) (-sel.absPeakVal) g_gain
  (model, updateResiduals n_scale cross crossWidth dirtyWidth psfPeakPos g_gain sel st.2)

/-- The first loop of `deconvolve`: `residual[s] = dirty` for `s < n_scale`. -/
def initResiduals (n_scale : Nat) (dirty : List ℚ) (residual : List (List ℚ)) :
    List (List ℚ) :=
  (List.range n_scale).foldl (fun res s => res.set s dirty) residual

/-- The anchors `psfPeakPos[s]`, `s < n_scale`, found by `findPeak(psf[s], ...)`. -/
def psfPeaks (n_scale : Nat) (psf : List (List ℚ)) : List Nat :=
  (List.range n_scale).map fun s => (findPeak (psf.getD s [])).2

/-- `deconvolve(dirty, dirtyWidth, psf, psfWidth, cross, crossWidth, model, residual)`
of an object built with `n_scale`, under the tunables `g_niters`, `g_gain`,
`g_threshold`: returns the final `(model, residual)`. -/
def deconvolve (n_scale g_niters : Nat) (g_gain g_threshold : ℚ)
    (dirty : List ℚ) (dirtyWidth : Nat) (psf : List (List ℚ)) (psfWidth : Nat)
    (cross : List (List ℚ)) (crossWidth : Nat)
    (model : List ℚ) (residual : List (List ℚ)) : List ℚ × List (List ℚ) :=
  (iterate n_scale g_gain g_threshold dirtyWidth psf psfWidth cross crossWidth
      (psfPeaks n_scale psf))^[g_niters]
    (model, initResiduals n_scale dirty residual)

/-- The peak selected by iteration `k + 1` of `deconvolve` (the same in every run of more
than `k` iterations): the scale scan on the residuals left by the first `k` iterations. -/
def selectedPeak (n_scale k : Nat) (g_gain g_threshold : ℚ)
    (dirty : List ℚ) (dirtyWidth : Nat) (psf : List (List ℚ)) (psfWidth : Nat)
    (cross : List (List ℚ)) (crossWidth : Nat)
    (model : List ℚ) (residual : List (List ℚ)) : PeakSel :=
  selectPeak n_scale g_threshold
    (deconvolve n_scale k g_gain g_threshold dirty dirtyWidth psf psfWidth cross crossWidth
      model residual).2

/-- The scales at which the scale scan of one iteration calls `findPeak`, in order: the
scan of `scanScales`, recording the scales instead of the selection. -/
def scannedScales (g_threshold : ℚ) (residual : List (List ℚ)) :
    List Nat → PeakSel → List Nat
  | [], _ => []
  | s :: rest, sel =>
      let this := findPeak (residual.getD s [])
      let sel1 : PeakSel :=
        if this.1 > sel.absPeakVal then ⟨this.1, this.2, s⟩ else sel
      if |sel1.absPeakVal| < g_threshold then [s]
      else s :: scannedScales g_threshold residual rest sel1

/-! ## The same operations with the conversions to `int` made explicit

The definitions above take `int` values as exact integers.  The source, on its LP64
target, narrows them to 32 bits: `idxToPos` receives the `size_t` index in a `const int`,
stores quotient and remainder in `int`, and `subtractPSF` keeps positions, offsets and loop
bounds in `int`.  The namespace `LP64` repeats `idxToPos`, `subtractPSF` and the major loop
with every such conversion written out (`asInt`); `asSizeT` and `posToIdx` are already
exact for `int` operands and widths below `2 ^ 32`, and the scale index kept in the `int`
`absPeakScale` is below `n_scale`.  The two versions coincide on images of at most `2 ^ 31`
samples (`subtractPSF_lp64_eq`, `deconvolve_lp64_eq`). -/

namespace LP64

/-- Value of an `int` that receives the exact integer `t`: reduced modulo `2 ^ 32` into
`[-2 ^ 31, 2 ^ 31)` (narrowing of a `size_t`; a signed overflow is taken to wrap). -/
def asInt (t : Int) : Int := (t + 2 ^ 31) % 2 ^ 32 - 2 ^ 31

/-- `idxToPos(idx, width)` on the `int` value `idx`: `const int y = idx / width` and
`const int x = idx % width`, the division being done in `size_t`. -/
def idxToPos (idx : Int) (width : Nat) : Position :=
  let y : Int := asInt (asSizeT idx / (width : Int))
  let x : Int := asInt (asSizeT idx % (width : Int))
  ⟨x, y⟩

/-- The `int` locals of `subtractPSF` that drive its double loop. -/
structure Box where
  diffx : Int
  diffy : Int
  startx : Int
  starty : Int
  stopx : Int
  stopy : Int
deriving DecidableEq, Repr

/-- The locals `diffx`, `diffy`, `startx`, `starty`, `stopx`, `stopy` of `subtractPSF`:
`peakPos` and `psfPeakPos` are narrowed to `int` on their way into `idxToPos`, and the
bounds `stopx`, `stopy`, computed in `size_t`, are narrowed when stored. -/
def subtractPSFBox (psfWidth residualWidth peakPos psfPeakPos : Nat) : Box :=
  let rx := (idxToPos (asInt peakPos) residualWidth).x
  let ry := (idxToPos (asInt peakPos) residualWidth).y
  let px := (idxToPos (asInt psfPeakPos) psfWidth).x
  let py := (idxToPos (asInt psfPeakPos) psfWidth).y
  { diffx := asInt (rx - px)
    diffy := asInt (ry - py)
    startx := max 0 (asInt (rx - px))
    starty := max 0 (asInt (ry - py))
    stopx := asInt (min (asSizeT ((residualWidth : Int) - 1))
      (asSizeT (rx + ((psfWidth : Int) - px - 1))))
    stopy := asInt (min (asSizeT ((residualWidth : Int) - 1))
      (asSizeT (ry + ((psfWidth : Int) - py - 1)))) }

/-- The index pairs `(target index, psf index)` used by the double loop of `subtractPSF`,
in the order of execution. -/
def subtractPSFAccesses (psfWidth residualWidth peakPos psfPeakPos : Nat) :
    List (Nat × Nat) :=
  let b := subtractPSFBox psfWidth residualWidth peakPos psfPeakPos
  (loopRange b.starty b.stopy).flatMap fun y =>
    (loopRange b.startx b.stopx).map fun x =>
      (posToIdx residualWidth ⟨x, y⟩,
        posToIdx psfWidth ⟨asInt (x - b.diffx), asInt (y - b.diffy)⟩)

/-- `subtractPSF(psf, psfWidth, residual, residualWidth, peakPos, psfPeakPos,
absPeakVal, gain)`: returns the updated `residual`. -/
def subtractPSF (psf : List ℚ) (psfWidth : Nat) (residual : List ℚ)
    (residualWidth : Nat) (peakPos psfPeakPos : Nat) (absPeakVal gain : ℚ) : List ℚ :=
  (subtractPSFAccesses psfWidth residualWidth peakPos psfPeakPos).foldl
    (subtractStep psf absPeakVal gain) residual

/-- The residual loop of one iteration: residual `s` gets
`cross[absPeakScale * n_scale + s]` subtracted, anchored at `psfPeakPos[s]`. -/
def updateResiduals (n_scale : Nat) (cross : List (List ℚ)) (crossWidth dirtyWidth : Nat)
    (psfPeakPos : List Nat) (g_gain : ℚ) (sel : PeakSel)
    (residual : List (List ℚ)) : List (List ℚ) :=
  (List.range n_scale).foldl
    (fun res s =>
      res.set s (subtractPSF (cross.getD (sel.absPeakScale * n_scale + s) []) crossWidth
        (res.getD s []) dirtyWidth sel.absPeakPos (psfPeakPos.getD s 0)
        sel.absPeakVal g_gain))
    residual

/-- One pass of the major loop on `(model, residual)`. -/
def iterate (n_scale : Nat) (g_gain g_threshold : ℚ) (dirtyWidth : Nat)
    (psf : List (List ℚ)) (psfWidth : Nat) (cross : List (List ℚ)) (crossWidth : Nat)
    (psfPeakPos : List Nat) (st : List ℚ × List (List ℚ)) : List ℚ × List (List ℚ) :=
  let sel := selectPeak n_scale g_threshold st.2
  let model := subtractPSF (psf.getD sel.absPeakScale []) psfWidth st.1 dirtyWidth
    sel.absPeakPos (psfPeakPos.getD sel.absPeakScale 0) (-sel.absPeakVal) g_gain
  (model, updateResiduals n_scale cross crossWidth dirtyWidth psfPeakPos g_gain sel st.2)

/-- `deconvolve(dirty, dirtyWidth, psf, psfWidth, cross, crossWidth, model, residual)`
under the tunables `g_niters`, `g_gain`, `g_threshold`: the final `(model, residual)`. -/
def deconvolve (n_scale g_niters : Nat) (g_gain g_threshold : ℚ)
    (dirty : List ℚ) (dirtyWidth : Nat) (psf : List (List ℚ)) (psfWidth : Nat)
    (cross : List (List ℚ)) (crossWidth : Nat)
    (model : List ℚ) (residual : List (List ℚ)) : List ℚ × List (List ℚ) :=
  (iterate n_scale g_gain g_threshold dirtyWidth psf psfWidth cross crossWidth
      (psfPeaks n_scale psf))^[g_niters]
    (model, initResiduals n_scale dirty residual)

/-- The peak selected by iteration `k + 1` of `deconvolve`: the scale scan on the
residuals left by the first `k` iterations. -/
def selectedPeak (n_scale k : Nat) (g_gain g_threshold : ℚ)
    (dirty : List ℚ) (dirtyWidth : Nat) (psf : List (List ℚ)) (psfWidth : Nat)
    (cross : List (List ℚ)) (crossWidth : Nat)
    (model : List ℚ) (residual : List (List ℚ)) : PeakSel :=
  selectPeak n_scale g_threshold
    (deconvolve n_scale k g_gain g_threshold dirty dirtyWidth psf psfWidth cross crossWidth
      model residual).2

end LP64

/-! ## Auxiliary definitions for the statements -/

/-- The loop invariant of `findPeak` after the first `i` samples: no earlier sample exceeds
the running maximum in magnitude, every sample before `maxPos` is strictly below it, and a
non-zero maximum is the sample at `maxPos`. -/
def PeakInv (image : List ℚ) (i : Nat) (acc : ℚ × Nat) : Prop :=
  (∀ j, j < i → |image.getD j 0| ≤ |acc.1|) ∧
  (∀ j, j < acc.2 → |image.getD j 0| < |acc.1|) ∧
  (acc.1 ≠ 0 → acc.2 < i ∧ image.getD acc.2 0 = acc.1) ∧
  (acc.1 = 0 → acc.2 = 0)

/-- An image of `n` samples that is `v` at index `k` and `0` elsewhere. -/
def impulse (n k : Nat) (v : ℚ) : List ℚ := (List.replicate n 0).set k v

/-! ## Indexing lemmas -/

theorem asSizeT_of_nonneg {t : Int} (h : 0 ≤ t) : asSizeT t = t := by
  unfold asSizeT
  split
  · omega
  · rfl

theorem idxToPos_x {idx : Int} (width : Nat) (h : 0 ≤ idx) :
    (idxToPos idx width).x = idx % (width : Int) := by
  simp [idxToPos, asSizeT_of_nonneg h]

theorem idxToPos_y {idx : Int} (width : Nat) (h : 0 ≤ idx) :
    (idxToPos idx width).y = idx / (width : Int) := by
  simp [idxToPos, asSizeT_of_nonneg h]

theorem posToIdx_cast (width : Nat) {x y : Int} (hx : 0 ≤ x) (hy : 0 ≤ y) :
    ((posToIdx width ⟨x, y⟩ : Nat) : Int) = y * (width : Int) + x := by
  have h : 0 ≤ y * (width : Int) + x := by positivity
  simp [posToIdx, asSizeT_of_nonneg h, Int.toNat_of_nonneg h]

theorem div_lt_of_lt_sq {width : Nat} {idx : Int} (h1 : idx < (width : Int) * width)
    (hw : 0 < width) :
    idx / (width : Int) < width := by
  have hw' : (0 : Int) < width := by exact_mod_cast hw
  exact Int.ediv_lt_of_lt_mul hw' h1

/-- C10. Index round trip: for `width > 0` and `0 ≤ idx < width * width`,
`posToIdx(width, idxToPos(idx, width)) = idx`, where `idxToPos` returns
`x = idx mod width`, `y = idx div width`, both in `[0, width)`. -/
theorem posToIdx_idxToPos (width : Nat) (idx : Int) (hw : 0 < width)
    (h0 : 0 ≤ idx) (h1 : idx < (width : Int) * width) :
    ((posToIdx width (idxToPos idx width) : Nat) : Int) = idx ∧
      (idxToPos idx width).x = idx % (width : Int) ∧
      (idxToPos idx width).y = idx / (width : Int) ∧
      0 ≤ (idxToPos idx width).x ∧ (idxToPos idx width).x < width ∧
      0 ≤ (idxToPos idx width).y ∧ (idxToPos idx width).y < width := by
  have hw' : (0 : Int) < width := by exact_mod_cast hw
  have hx0 : 0 ≤ idx % (width : Int) := Int.emod_nonneg _ (by omega)
  have hx1 : idx % (width : Int) < width := Int.emod_lt_of_pos _ hw'
  have hy0 : 0 ≤ idx / (width : Int) := Int.ediv_nonneg h0 (by omega)
  have hy1 : idx / (width : Int) < width := div_lt_of_lt_sq h1 hw
  have hpos : idxToPos idx width = ⟨idx % (width : Int), idx / (width : Int)⟩ := by
    simp [idxToPos, asSizeT_of_nonneg h0]
  refine ⟨?_, idxToPos_x width h0, idxToPos_y width h0, ?_, ?_, ?_, ?_⟩
  · rw [hpos, posToIdx_cast width hx0 hy0]
    exact Int.ediv_add_emod' idx width
  · rw [idxToPos_x width h0]; exact hx0
  · rw [idxToPos_x width h0]; exact hx1
  · rw [idxToPos_y width h0]; exact hy0
  · rw [idxToPos_y width h0]; exact hy1

theorem posToIdx_idxToPos_witness :
    ((posToIdx 4 (idxToPos 10 4) : Nat) : Int) = 10 ∧
      (idxToPos 10 4).x = 10 % ((4 : Nat) : Int) ∧
      (idxToPos 10 4).y = 10 / ((4 : Nat) : Int) ∧
      0 ≤ (idxToPos 10 4).x ∧ (idxToPos 10 4).x < (4 : Nat) ∧
      0 ≤ (idxToPos 10 4).y ∧ (idxToPos 10 4).y < (4 : Nat) :=
  posToIdx_idxToPos 4 10 (by decide) (by decide) (by decide)

/-! ## Peak search lemmas -/

theorem peakInv_step {image : List ℚ} {i : Nat} {acc : ℚ × Nat}
    (h : PeakInv image i acc) :
    PeakInv image (i + 1)
      (if |image.getD i 0| > |acc.1| then (image.getD i 0, i) else acc) := by
  obtain ⟨h1, h2, h3, h4⟩ := h
  split
  · rename_i hgt
    refine ⟨?_, ?_, ?_, ?_⟩
    · intro j hj
      rcases Nat.lt_succ_iff_lt_or_eq.mp hj with hlt | heq
      · exact le_trans (h1 j hlt) hgt.le
      · simp [heq]
    · intro j hj
      exact lt_of_le_of_lt (h1 j hj) hgt
    · intro _
      exact ⟨Nat.lt_succ_self i, rfl⟩
    · intro h0
      have hgt' : |acc.1| < |image.getD i 0| := hgt
      simp only at h0
      rw [h0, abs_zero] at hgt'
      exact absurd hgt' (not_lt.mpr (abs_nonneg _))
  · rename_i hle
    refine ⟨?_, h2, ?_, h4⟩
    · intro j hj
      rcases Nat.lt_succ_iff_lt_or_eq.mp hj with hlt | heq
      · exact h1 j hlt
      · rw [heq]; exact not_lt.mp hle
    · intro hne
      exact ⟨Nat.lt_succ_of_lt (h3 hne).1, (h3 hne).2⟩

theorem findPeakLoop_inv (image : List ℚ) :
    ∀ (rest : List ℚ) (i : Nat) (acc : ℚ × Nat),
      image.drop i = rest → PeakInv image i acc →
      PeakInv image image.length (findPeakLoop rest i acc) := by
  intro rest
  induction rest with
  | nil =>
    intro i acc hd h
    show PeakInv image image.length acc
    have hlen : image.length ≤ i := List.drop_eq_nil_iff.mp hd
    obtain ⟨h1, h2, h3, h4⟩ := h
    refine ⟨fun j hj => h1 j (lt_of_lt_of_le hj hlen), h2, ?_, h4⟩
    intro hne
    refine ⟨?_, (h3 hne).2⟩
    by_contra hge
    have hz : image.getD acc.2 0 = 0 := by
      simp [List.getD_eq_getElem?_getD, List.getElem?_eq_none (not_lt.mp hge)]
    exact hne ((h3 hne).2.symm.trans hz)
  | cons v rest ih =>
    intro i acc hd h
    have hi : i < image.length := by
      by_contra hge
      rw [List.drop_eq_nil_iff.mpr (not_lt.mp hge)] at hd
      exact List.noConfusion hd
    have hv : image.getD i 0 = v := by
      have := List.drop_eq_getElem_cons hi
      rw [this] at hd
      simp [List.getD_eq_getElem?_getD, List.getElem?_eq_getElem hi, (List.cons.inj hd).1]
    have hrest : image.drop (i + 1) = rest := by
      have := List.drop_eq_getElem_cons hi
      rw [this] at hd
      exact (List.cons.inj hd).2
    have hstep := peakInv_step h
    rw [hv] at hstep
    exact ih (i + 1) _ hrest hstep

theorem findPeak_inv (image : List ℚ) : PeakInv image image.length (findPeak image) := by
  refine findPeakLoop_inv image image 0 (0, 0) rfl ⟨?_, ?_, ?_, ?_⟩
  · intro j hj; exact absurd hj (Nat.not_lt_zero j)
  · intro j hj; exact absurd hj (Nat.not_lt_zero j)
  · intro h; exact absurd rfl h
  · intro _; rfl

/-- C6. `findPeak` returns the first sample of greatest absolute value: on an image
with a non-zero sample, `maxPos` is a valid index, `maxVal = image[maxPos]`, no sample
exceeds `|maxVal|`, and every sample before `maxPos` is strictly below it. -/
theorem findPeak_first_greatest (image : List ℚ)
    (hnz : ∃ k, k < image.length ∧ image.getD k 0 ≠ 0) :
    (findPeak image).2 < image.length ∧
      (findPeak image).1 = image.getD (findPeak image).2 0 ∧
      (∀ i, i < image.length → |image.getD i 0| ≤ |(findPeak image).1|) ∧
      (∀ i, i < (findPeak image).2 → |image.getD i 0| < |(findPeak image).1|) := by
  obtain ⟨h1, h2, h3, _⟩ := findPeak_inv image
  obtain ⟨k, hk, hkne⟩ := hnz
  have hne : (findPeak image).1 ≠ 0 := by
    intro h0
    have := h1 k hk
    rw [h0, abs_zero] at this
    exact hkne (abs_eq_zero.mp (le_antisymm this (abs_nonneg _)))
  exact ⟨(h3 hne).1, (h3 hne).2.symm, h1, h2⟩

theorem findPeak_first_greatest_witness :
    (findPeak [1, -3, 2, 3]).2 < [1, -3, 2, (3 : ℚ)].length ∧
      (findPeak [1, -3, 2, 3]).1 = [1, -3, 2, (3 : ℚ)].getD (findPeak [1, -3, 2, 3]).2 0 ∧
      (∀ i, i < [1, -3, 2, (3 : ℚ)].length →
        |[1, -3, 2, (3 : ℚ)].getD i 0| ≤ |(findPeak [1, -3, 2, 3]).1|) ∧
      (∀ i, i < (findPeak [1, -3, 2, 3]).2 →
        |[1, -3, 2, (3 : ℚ)].getD i 0| < |(findPeak [1, -3, 2, 3]).1|) :=
  findPeak_first_greatest [1, -3, 2, 3] ⟨1, by decide, by decide⟩


/-! ## Loop ranges -/

theorem mem_loopRange {lo hi v : Int} : v ∈ loopRange lo hi ↔ lo ≤ v ∧ v ≤ hi := by
  unfold loopRange
  simp only [List.mem_map, List.mem_range]
  constructor
  · rintro ⟨k, hk, rfl⟩
    omega
  · rintro ⟨h1, h2⟩
    refine ⟨(v - lo).toNat, ?_, ?_⟩ <;> omega

theorem nodup_loopRange (lo hi : Int) : (loopRange lo hi).Nodup := by
  unfold loopRange
  refine List.Nodup.map ?_ (List.nodup_range _)
  intro a b h
  simp only at h
  omega

/-! ## Folding the loop body over a list of accesses -/

theorem getD_set_eq (l : List ℚ) (t i : Nat) (v : ℚ) :
    (l.set t v).getD i 0 = if t = i ∧ t < l.length then v else l.getD i 0 := by
  simp only [List.getD_eq_getElem?_getD, List.getElem?_set]
  by_cases hti : t = i
  · by_cases hlen : t < l.length
    · subst hti
      simp [hlen]
    · subst hti
      simp [hlen, List.getElem?_eq_none (not_lt.mp hlen)]
  · simp [hti]

theorem length_foldl_subtractStep (psf : List ℚ) (v g : ℚ) (acc : List (Nat × Nat)) :
    ∀ res : List ℚ, (acc.foldl (subtractStep psf v g) res).length = res.length := by
  induction acc with
  | nil => intro res; rfl
  | cons a acc ih =>
    intro res
    rw [List.foldl_cons, ih]
    simp [subtractStep]

theorem getD_foldl_subtractStep_miss (psf : List ℚ) (v g : ℚ) (i : Nat)
    (acc : List (Nat × Nat)) :
    ∀ res : List ℚ, (∀ a ∈ acc, a.1 ≠ i) →
      (acc.foldl (subtractStep psf v g) res).getD i 0 = res.getD i 0 := by
  induction acc with
  | nil => intro res _; rfl
  | cons a acc ih =>
    intro res h
    rw [List.foldl_cons, ih _ (fun b hb => h b (List.mem_cons_of_mem _ hb))]
    have hne : a.1 ≠ i := h a (List.mem_cons_self _ _)
    simp [subtractStep, getD_set_eq, hne]

theorem getD_foldl_subtractStep_hit (psf : List ℚ) (v g : ℚ) (acc : List (Nat × Nat)) :
    ∀ (res : List ℚ) (a : Nat × Nat), (acc.map Prod.fst).Nodup → a ∈ acc →
      a.1 < res.length →
      (acc.foldl (subtractStep psf v g) res).getD a.1 0 =
        res.getD a.1 0 - g * v * psf.getD a.2 0 := by
  induction acc with
  | nil => intro res a _ ha; exact absurd ha (List.not_mem_nil a)
  | cons b acc ih =>
    intro res a hnd ha hlen
    rw [List.map_cons, List.nodup_cons] at hnd
    rw [List.foldl_cons]
    rcases List.mem_cons.mp ha with hab | hmem
    · subst hab
      rw [getD_foldl_subtractStep_miss]
      · simp [subtractStep, getD_set_eq, hlen]
      · intro c hc hca
        exact hnd.1 (hca ▸ List.mem_map_of_mem Prod.fst hc)
    · have hba : b.1 ≠ a.1 := by
        intro hba
        exact hnd.1 (hba ▸ List.mem_map_of_mem Prod.fst hmem)
      rw [ih _ a hnd.2 hmem (by simpa [subtractStep] using hlen)]
      simp [subtractStep, getD_set_eq, hba]


/-! ## Geometry of the overlap box -/

theorem idxToPos_bounds {width idx : Nat} (hw : 0 < width) (h : idx < width * width) :
    0 ≤ (idxToPos idx width).x ∧ (idxToPos idx width).x < width ∧
      0 ≤ (idxToPos idx width).y ∧ (idxToPos idx width).y < width ∧
      (idxToPos idx width).y * width + (idxToPos idx width).x = idx := by
  have hw' : (0 : Int) < width := by exact_mod_cast hw
  have h0 : (0 : Int) ≤ idx := Int.ofNat_nonneg idx
  have h1 : (idx : Int) < (width : Int) * width := by exact_mod_cast h
  rw [idxToPos_x width h0, idxToPos_y width h0]
  exact ⟨Int.emod_nonneg _ (by omega), Int.emod_lt_of_pos _ hw',
    Int.ediv_nonneg h0 (by omega), div_lt_of_lt_sq h1 hw, Int.ediv_add_emod' _ _⟩

theorem posToIdx_inj {W : Nat} {x1 y1 x2 y2 : Int}
    (hx1 : 0 ≤ x1 ∧ x1 < W) (hx2 : 0 ≤ x2 ∧ x2 < W) (hy1 : 0 ≤ y1) (hy2 : 0 ≤ y2)
    (h : posToIdx W ⟨x1, y1⟩ = posToIdx W ⟨x2, y2⟩) : x1 = x2 ∧ y1 = y2 := by
  have hc : y1 * (W : Int) + x1 = y2 * (W : Int) + x2 := by
    rw [← posToIdx_cast W hx1.1 hy1, ← posToIdx_cast W hx2.1 hy2, h]
  have hW0 : (0 : Int) ≤ W := Int.ofNat_nonneg W
  have hy : y1 = y2 := by
    rcases lt_trichotomy y1 y2 with hlt | heq | hgt
    · have hm : (y1 + 1) * (W : Int) ≤ y2 * (W : Int) :=
        mul_le_mul_of_nonneg_right (by omega) hW0
      have he : (y1 + 1) * (W : Int) = y1 * (W : Int) + W := by ring
      omega
    · exact heq
    · have hm : (y2 + 1) * (W : Int) ≤ y1 * (W : Int) :=
        mul_le_mul_of_nonneg_right (by omega) hW0
      have he : (y2 + 1) * (W : Int) = y2 * (W : Int) + W := by ring
      omega
  subst hy
  exact ⟨by omega, rfl⟩

theorem posToIdx_lt_sq {W : Nat} {x y : Int} (hx : 0 ≤ x ∧ x < W) (hy : 0 ≤ y ∧ y < W) :
    posToIdx W ⟨x, y⟩ < W * W := by
  have hc := posToIdx_cast W hx.1 hy.1
  have hW0 : (0 : Int) ≤ W := Int.ofNat_nonneg W
  have hm : (y + 1) * (W : Int) ≤ (W : Int) * (W : Int) :=
    mul_le_mul_of_nonneg_right (by omega) hW0
  have he : (y + 1) * (W : Int) = y * (W : Int) + W := by ring
  have : ((posToIdx W ⟨x, y⟩ : Nat) : Int) < ((W * W : Nat) : Int) := by
    push_cast
    omega
  exact_mod_cast this

theorem mem_subtractPSFAccesses {P W peakPos psfPeakPos : Nat} (hW : 0 < W) (hP : 0 < P)
    (hpk : peakPos < W * W) (hppk : psfPeakPos < P * P) (a : Nat × Nat) :
    a ∈ subtractPSFAccesses P W peakPos psfPeakPos ↔
      ∃ y x : Int, (0 ≤ y ∧ y < W) ∧ (0 ≤ x ∧ x < W) ∧
        (0 ≤ y - (idxToPos peakPos W).y + (idxToPos psfPeakPos P).y ∧
          y - (idxToPos peakPos W).y + (idxToPos psfPeakPos P).y < P) ∧
        (0 ≤ x - (idxToPos peakPos W).x + (idxToPos psfPeakPos P).x ∧
          x - (idxToPos peakPos W).x + (idxToPos psfPeakPos P).x < P) ∧
        a = (posToIdx W ⟨x, y⟩,
          posToIdx P ⟨x - (idxToPos peakPos W).x + (idxToPos psfPeakPos P).x,
            y - (idxToPos peakPos W).y + (idxToPos psfPeakPos P).y⟩) := by
  obtain ⟨hrx0, hrx1, hry0, hry1, -⟩ := idxToPos_bounds hW hpk
  obtain ⟨hpx0, hpx1, hpy0, hpy1, -⟩ := idxToPos_bounds hP hppk
  have hW1 : asSizeT ((W : Int) - 1) = (W : Int) - 1 := asSizeT_of_nonneg (by omega)
  have hsx : asSizeT ((idxToPos peakPos W).x + ((P : Int) - (idxToPos psfPeakPos P).x - 1))
      = (idxToPos peakPos W).x + ((P : Int) - (idxToPos psfPeakPos P).x - 1) :=
    asSizeT_of_nonneg (by omega)
  have hsy : asSizeT ((idxToPos peakPos W).y + ((P : Int) - (idxToPos psfPeakPos P).y - 1))
      = (idxToPos peakPos W).y + ((P : Int) - (idxToPos psfPeakPos P).y - 1) :=
    asSizeT_of_nonneg (by omega)
  simp only [subtractPSFAccesses, hW1, hsx, hsy, List.mem_flatMap, List.mem_map,
    mem_loopRange]
  constructor
  · rintro ⟨y, hy, x, hx, rfl⟩
    refine ⟨y, x, by omega, by omega, by omega, by omega, ?_⟩
    congr 3 <;> omega
  · rintro ⟨y, x, hy, hx, hyb, hxb, rfl⟩
    refine ⟨y, by omega, x, by omega, ?_⟩
    congr 3 <;> omega


theorem nodup_targets_subtractPSFAccesses {P W peakPos psfPeakPos : Nat} (hW : 0 < W)
    (hP : 0 < P) (hpk : peakPos < W * W) (hppk : psfPeakPos < P * P) :
    ((subtractPSFAccesses P W peakPos psfPeakPos).map Prod.fst).Nodup := by
  obtain ⟨hrx0, hrx1, hry0, hry1, -⟩ := idxToPos_bounds hW hpk
  obtain ⟨hpx0, hpx1, hpy0, hpy1, -⟩ := idxToPos_bounds hP hppk
  have hW1 : asSizeT ((W : Int) - 1) = (W : Int) - 1 := asSizeT_of_nonneg (by omega)
  simp only [subtractPSFAccesses, hW1, List.map_flatMap, List.map_map]
  rw [List.nodup_flatMap]
  constructor
  · intro y hy
    rw [mem_loopRange] at hy
    refine List.Nodup.map_on ?_ (nodup_loopRange _ _)
    intro x1 hx1 x2 hx2 h
    rw [mem_loopRange] at hx1 hx2
    exact (posToIdx_inj (W := W) (by omega) (by omega) (by omega) (by omega) h).1
  · refine List.Pairwise.imp_of_mem ?_ (nodup_loopRange _ _)
    intro y1 y2 hy1 hy2 hne
    rw [mem_loopRange] at hy1 hy2
    simp only [Function.onFun, List.disjoint_left, List.mem_map, mem_loopRange,
      Function.comp]
    rintro t ⟨x1, hx1, rfl⟩ ⟨x2, hx2, h⟩
    exact hne (posToIdx_inj (W := W) (by omega) (by omega) (by omega) (by omega) h).2.symm

theorem length_subtractPSF (psf : List ℚ) (P : Nat) (target : List ℚ)
    (W peakPos psfPeakPos : Nat) (v g : ℚ) :
    (subtractPSF psf P target W peakPos psfPeakPos v g).length = target.length :=
  length_foldl_subtractStep psf v g _ target

/-- The pointwise value of `subtractPSF` at the target sample `(x, y)`. -/
theorem getD_subtractPSF (psf target : List ℚ) (P W peakPos psfPeakPos : Nat)
    (peakVal gain : ℚ) (hW : 0 < W) (hP : 0 < P) (ht : target.length = W * W)
    (hpk : peakPos < W * W) (hppk : psfPeakPos < P * P)
    (x y : Nat) (hx : x < W) (hy : y < W) :
    (subtractPSF psf P target W peakPos psfPeakPos peakVal gain).getD (y * W + x) 0 =
      if (0 ≤ (x : Int) - (idxToPos peakPos W).x + (idxToPos psfPeakPos P).x ∧
            (x : Int) - (idxToPos peakPos W).x + (idxToPos psfPeakPos P).x < P) ∧
          (0 ≤ (y : Int) - (idxToPos peakPos W).y + (idxToPos psfPeakPos P).y ∧
            (y : Int) - (idxToPos peakPos W).y + (idxToPos psfPeakPos P).y < P)
      then target.getD (y * W + x) 0 - gain * peakVal *
        psf.getD (posToIdx P ⟨(x : Int) - (idxToPos peakPos W).x + (idxToPos psfPeakPos P).x,
          (y : Int) - (idxToPos peakPos W).y + (idxToPos psfPeakPos P).y⟩) 0
      else target.getD (y * W + x) 0 := by
  have hx' : (0 : Int) ≤ x ∧ (x : Int) < W := ⟨Int.ofNat_nonneg x, by exact_mod_cast hx⟩
  have hy' : (0 : Int) ≤ y ∧ (y : Int) < W := ⟨Int.ofNat_nonneg y, by exact_mod_cast hy⟩
  have ht1 : posToIdx W ⟨x, y⟩ = y * W + x := by
    have := posToIdx_cast W hx'.1 hy'.1
    exact_mod_cast this
  split
  · rename_i hc
    have hmem : (posToIdx W ⟨x, y⟩,
        posToIdx P ⟨(x : Int) - (idxToPos peakPos W).x + (idxToPos psfPeakPos P).x,
          (y : Int) - (idxToPos peakPos W).y + (idxToPos psfPeakPos P).y⟩) ∈
        subtractPSFAccesses P W peakPos psfPeakPos :=
      (mem_subtractPSFAccesses hW hP hpk hppk _).mpr ⟨y, x, hy', hx', hc.2, hc.1, rfl⟩
    have hlen : posToIdx W ⟨x, y⟩ < target.length := by
      rw [ht]; exact posToIdx_lt_sq hx' hy'
    have := getD_foldl_subtractStep_hit psf peakVal gain _ target _
      (nodup_targets_subtractPSFAccesses hW hP hpk hppk) hmem hlen
    simp only [ht1] at this
    rw [subtractPSF, this]
  · rename_i hc
    apply getD_foldl_subtractStep_miss
    intro a ha heq
    obtain ⟨y2, x2, hy2, hx2, hyb, hxb, rfl⟩ :=
      (mem_subtractPSFAccesses hW hP hpk hppk a).mp ha
    have h := posToIdx_inj hx2 hx' hy2.1 hy'.1 ((heq.trans ht1.symm))
    obtain ⟨h1, h2⟩ := h
    subst h1 h2
    exact hc ⟨hxb, hyb⟩


/-- C7. Boundary clipping: every index `subtractPSF` writes to is below `W * W`, and
the target keeps its length `W * W`, wherever the aligned PSF window falls. -/
theorem subtractPSF_writes_in_bounds (psf target : List ℚ) (P W peakPos psfPeakPos : Nat)
    (peakVal gain : ℚ) (hW : 0 < W) (hP : 0 < P) (ht : target.length = W * W)
    (hpk : peakPos < W * W) (hppk : psfPeakPos < P * P) :
    (∀ a ∈ subtractPSFAccesses P W peakPos psfPeakPos, a.1 < W * W) ∧
      (subtractPSF psf P target W peakPos psfPeakPos peakVal gain).length = W * W := by
  refine ⟨?_, (length_subtractPSF psf P target W peakPos psfPeakPos peakVal gain).trans ht⟩
  intro a ha
  obtain ⟨y, x, hy, hx, -, -, rfl⟩ := (mem_subtractPSFAccesses hW hP hpk hppk a).mp ha
  exact posToIdx_lt_sq hx hy

theorem subtractPSF_writes_in_bounds_witness :
    (∀ a ∈ subtractPSFAccesses 5 2 3 0, a.1 < 2 * 2) ∧
      (subtractPSF (List.replicate 25 1) 5 [1, 2, 3, 4] 2 3 0 1 1).length = 2 * 2 :=
  subtractPSF_writes_in_bounds (List.replicate 25 1) [1, 2, 3, 4] 5 2 3 0 1 1
    (by decide) (by decide) (by decide) (by decide) (by decide)

theorem subtractStep_gain_zero (psf : List ℚ) (v : ℚ) (res : List ℚ) (a : Nat × Nat) :
    subtractStep psf v 0 res a = res := by
  unfold subtractStep
  apply List.ext_getElem?
  intro i
  by_cases h : a.1 = i
  · subst h
    by_cases hl : a.1 < res.length
    · simp [List.getElem?_set, hl, List.getD_eq_getElem?_getD]
    · simp [List.getElem?_set, hl, List.getElem?_eq_none (not_lt.mp hl)]
  · simp [List.getElem?_set, h]

/-- C9. With `gain = 0`, `subtractPSF` is the identity on the target, for any PSF,
widths, positions and peak value. -/
theorem subtractPSF_gain_zero (psf : List ℚ) (P : Nat) (target : List ℚ)
    (W peakPos psfPeakPos : Nat) (peakVal : ℚ) :
    subtractPSF psf P target W peakPos psfPeakPos peakVal 0 = target := by
  unfold subtractPSF
  generalize subtractPSFAccesses P W peakPos psfPeakPos = acc
  induction acc with
  | nil => rfl
  | cons a acc ih => rw [List.foldl_cons, subtractStep_gain_zero, ih]


/-! ## Updates at the peak and unit impulses -/

theorem getD_subtractPSF_at_peak (psf target : List ℚ) (P W peakPos psfPeakPos : Nat)
    (peakVal gain : ℚ) (hW : 0 < W) (hP : 0 < P) (ht : target.length = W * W)
    (hpk : peakPos < W * W) (hppk : psfPeakPos < P * P) :
    (subtractPSF psf P target W peakPos psfPeakPos peakVal gain).getD peakPos 0 =
      target.getD peakPos 0 - gain * peakVal * psf.getD psfPeakPos 0 := by
  obtain ⟨hrx0, hrx1, hry0, hry1, hr⟩ := idxToPos_bounds hW hpk
  obtain ⟨hpx0, hpx1, hpy0, hpy1, hp⟩ := idxToPos_bounds hP hppk
  have h1 : posToIdx W ⟨(idxToPos peakPos W).x, (idxToPos peakPos W).y⟩ = peakPos := by
    have := posToIdx_cast W hrx0 hry0
    rw [hr] at this
    exact_mod_cast this
  have h2 : posToIdx P ⟨(idxToPos psfPeakPos P).x, (idxToPos psfPeakPos P).y⟩
      = psfPeakPos := by
    have := posToIdx_cast P hpx0 hpy0
    rw [hp] at this
    exact_mod_cast this
  have hmem : (peakPos, psfPeakPos) ∈ subtractPSFAccesses P W peakPos psfPeakPos := by
    refine (mem_subtractPSFAccesses hW hP hpk hppk _).mpr
      ⟨(idxToPos peakPos W).y, (idxToPos peakPos W).x, ⟨hry0, hry1⟩, ⟨hrx0, hrx1⟩,
        by omega, by omega, ?_⟩
    rw [h1, sub_self, sub_self, zero_add, zero_add, h2]
  exact getD_foldl_subtractStep_hit psf peakVal gain _ target (peakPos, psfPeakPos)
    (nodup_targets_subtractPSFAccesses hW hP hpk hppk) hmem (by rw [ht]; exact hpk)

theorem ext_getD {l1 l2 : List ℚ} (hlen : l1.length = l2.length)
    (h : ∀ i, i < l1.length → l1.getD i 0 = l2.getD i 0) : l1 = l2 := by
  apply List.ext_getElem hlen
  intro i h1 h2
  have := h i h1
  simpa [List.getD_eq_getElem?_getD, List.getElem?_eq_getElem h1,
    List.getElem?_eq_getElem h2] using this

/-- With a PSF that is `1` at its anchor and `0` elsewhere, `subtractPSF` changes the
target at `peakPos` only. -/
theorem subtractPSF_unit_impulse (psf target : List ℚ) (P W peakPos psfPeakPos : Nat)
    (peakVal gain : ℚ) (hW : 0 < W) (hP : 0 < P) (ht : target.length = W * W)
    (hpk : peakPos < W * W) (hppk : psfPeakPos < P * P)
    (h1 : psf.getD psfPeakPos 0 = 1) (h0 : ∀ i, i ≠ psfPeakPos → psf.getD i 0 = 0) :
    subtractPSF psf P target W peakPos psfPeakPos peakVal gain =
      target.set peakPos (target.getD peakPos 0 - gain * peakVal) := by
  obtain ⟨hrx0, hrx1, hry0, hry1, hr⟩ := idxToPos_bounds hW hpk
  obtain ⟨hpx0, hpx1, hpy0, hpy1, hp⟩ := idxToPos_bounds hP hppk
  apply ext_getD
  · simp [length_subtractPSF]
  · intro i hi
    rw [length_subtractPSF, ht] at hi
    rw [getD_set_eq]
    by_cases hip : peakPos = i
    · subst hip
      rw [getD_subtractPSF_at_peak psf target P W peakPos psfPeakPos peakVal gain hW hP ht
        hpk hppk, h1]
      simp [ht, hpk]
    · have hx : i % W < W := Nat.mod_lt _ hW
      have hy : i / W < W := Nat.div_lt_of_lt_mul hi
      have hi' : i / W * W + i % W = i := Nat.div_add_mod' i W
      have hg := getD_subtractPSF psf target P W peakPos psfPeakPos peakVal gain hW hP ht hpk
        hppk (i % W) (i / W) hx hy
      rw [hi'] at hg
      rw [if_neg (show ¬(peakPos = i ∧ peakPos < target.length) from fun h => hip h.1), hg]
      split
      · rename_i hc
        rw [h0, mul_zero, sub_zero]
        intro hq
        have h2 : posToIdx P ⟨(idxToPos psfPeakPos P).x, (idxToPos psfPeakPos P).y⟩
            = psfPeakPos := by
          have := posToIdx_cast P hpx0 hpy0
          rw [hp] at this
          exact_mod_cast this
        have hinj := posToIdx_inj hc.1 ⟨hpx0, hpx1⟩ hc.2.1 hpy0 (hq.trans h2.symm)
        apply hip
        have hxe : ((i % W : Nat) : Int) = (idxToPos peakPos W).x := by omega
        have hye : ((i / W : Nat) : Int) = (idxToPos peakPos W).y := by omega
        have : ((i / W * W + i % W : Nat) : Int) = peakPos := by
          push_cast
          rw [← hr, ← hxe, ← hye]
          push_cast
          rfl
        rw [hi'] at this
        exact_mod_cast this.symm
      · rfl

theorem findPeak_eq_of_first_greatest {image : List ℚ} {p : Nat} {v : ℚ}
    (hp : p < image.length) (hv : image.getD p 0 = v) (hne : v ≠ 0)
    (hlt : ∀ i, i < p → |image.getD i 0| < |v|)
    (hle : ∀ i, i < image.length → |image.getD i 0| ≤ |v|) :
    findPeak image = (v, p) := by
  obtain ⟨h1, h2, h3, _⟩ := findPeak_inv image
  have hge : |v| ≤ |(findPeak image).1| := hv ▸ h1 p hp
  have hr : (findPeak image).1 ≠ 0 := by
    intro h0
    rw [h0, abs_zero] at hge
    exact hne (abs_eq_zero.mp (le_antisymm hge (abs_nonneg _)))
  obtain ⟨hpos, hval⟩ := h3 hr
  have hpe : (findPeak image).2 = p := by
    rcases lt_trichotomy (findPeak image).2 p with h | h | h
    · have := hlt _ h
      rw [hval] at this
      exact absurd hge (not_le.mpr this)
    · exact h
    · have := h2 p h
      rw [hv] at this
      exact absurd (hle _ hpos) (not_le.mpr (hval ▸ this))
  have hve : (findPeak image).1 = v := by rw [← hval, hpe, hv]
  exact Prod.ext hve hpe

theorem length_impulse (n k : Nat) (v : ℚ) : (impulse n k v).length = n := by
  simp [impulse]

theorem getD_impulse (n k i : Nat) (v : ℚ) :
    (impulse n k v).getD i 0 = if k = i ∧ k < n then v else 0 := by
  unfold impulse
  rw [getD_set_eq]
  by_cases h : i < n
  · simp [List.getD_eq_getElem?_getD, h]
  · simp [List.getD_eq_getElem?_getD, List.getElem?_eq_none (l := List.replicate n (0 : ℚ))
      (by simpa using not_lt.mp h)]

theorem findPeak_impulse {n k : Nat} {v : ℚ} (hk : k < n) (hv : v ≠ 0) :
    findPeak (impulse n k v) = (v, k) := by
  apply findPeak_eq_of_first_greatest
  · rw [length_impulse]; exact hk
  · rw [getD_impulse, if_pos ⟨rfl, hk⟩]
  · exact hv
  · intro i hi
    have : ¬ (k = i ∧ k < n) := fun h => absurd h.1 (Nat.ne_of_gt hi)
    rw [getD_impulse, if_neg this, abs_zero]
    exact abs_pos.mpr hv
  · intro i _
    rw [getD_impulse]
    split
    · exact le_refl _
    · rw [abs_zero]; exact abs_nonneg _

/-! ## The scale scan -/

theorem getD_foldl_set (F : Nat → List ℚ → List ℚ) (l : List Nat) :
    ∀ (res : List (List ℚ)) (s : Nat), l.Nodup → s < res.length →
      (l.foldl (fun r t => r.set t (F t (r.getD t []))) res).getD s [] =
        if s ∈ l then F s (res.getD s []) else res.getD s [] := by
  induction l with
  | nil => intro res s _ _; simp
  | cons t l ih =>
    intro res s hnd hs
    rw [List.nodup_cons] at hnd
    rw [List.foldl_cons, ih _ s hnd.2 (by simpa using hs)]
    by_cases hts : t = s
    · subst hts
      simp [hnd.1, List.getD_eq_getElem?_getD, List.getElem?_set, hs]
    · have hst : ¬ s = t := fun h => hts h.symm
      simp [List.mem_cons, hst, List.getD_eq_getElem?_getD, List.getElem?_set, hts]

theorem getD_updateResiduals (n_scale : Nat) (cross : List (List ℚ))
    (crossWidth dirtyWidth : Nat) (psfPeakPos : List Nat) (g : ℚ) (sel : PeakSel)
    (residual : List (List ℚ)) (s : Nat) (hs : s < n_scale) (hlen : n_scale ≤ residual.length) :
    (updateResiduals n_scale cross crossWidth dirtyWidth psfPeakPos g sel residual).getD s [] =
      subtractPSF (cross.getD (sel.absPeakScale * n_scale + s) []) crossWidth
        (residual.getD s []) dirtyWidth sel.absPeakPos (psfPeakPos.getD s 0)
        sel.absPeakVal g := by
  unfold updateResiduals
  rw [getD_foldl_set (fun t r => subtractPSF (cross.getD (sel.absPeakScale * n_scale + t) [])
    crossWidth r dirtyWidth sel.absPeakPos (psfPeakPos.getD t 0) sel.absPeakVal g)
    (List.range n_scale) residual s (List.nodup_range _) (lt_of_lt_of_le hs hlen)]
  rw [if_pos (List.mem_range.mpr hs)]


/-! ## The major loop on concrete scenarios -/

/-- C2 (the code at the failing input). With two residuals `[3]` and `[-5]` and threshold
`0` (the scan is never cut short), the scan selects `(3, 0, 0)`, although `findPeak` of
residual 1 is `-5`, of greater magnitude: the comparison between scales is signed. -/
theorem selectPeak_negative_peak_loses :
    selectPeak 2 0 [[3], [-5]] = ⟨3, 0, 0⟩ ∧ findPeak [-5] = (-5, 0) ∧
      |(selectPeak 2 0 [[3], [-5]]).absPeakVal| < |(findPeak [-5]).1| := by
  decide

/-- C3 (the code at the failing input). With dirty image `[1]`, threshold `2`, gain `1/2`
and one iteration, the selected peak `1` is below the threshold, yet the model and the
residual are updated: leaving the scale scan does not leave the iteration. -/
theorem deconvolve_updates_below_threshold :
    |(selectPeak 1 2 [[1]]).absPeakVal| < 2 ∧
      deconvolve 1 1 (1 / 2) 2 [1] 1 [[1]] 1 [[1]] 1 [0] [[0]] = ([1 / 2], [[1 / 2]]) := by
  constructor
  · decide
  · with_unfolding_all decide


/-! ## Peak search on degenerate images -/

theorem findPeak_eq_zero_of_all_zero {image : List ℚ} (h : ∀ i, image.getD i 0 = 0) :
    findPeak image = (0, 0) := by
  obtain ⟨_, _, h3, h4⟩ := findPeak_inv image
  have hv : (findPeak image).1 = 0 := by
    by_contra hne
    exact hne ((h3 hne).2.symm.trans (h _))
  exact Prod.ext hv (h4 hv)

theorem getD_replicate_zero (n i : Nat) : (List.replicate n (0 : ℚ)).getD i 0 = 0 := by
  by_cases h : i < n
  · simp [List.getD_eq_getElem?_getD, h]
  · simp [List.getD_eq_getElem?_getD, List.getElem?_eq_none (l := List.replicate n (0 : ℚ))
      (by simpa using not_lt.mp h)]

theorem getD_psfPeaks {n_scale s : Nat} (psf : List (List ℚ)) (hs : s < n_scale) :
    (psfPeaks n_scale psf).getD s 0 = (findPeak (psf.getD s [])).2 := by
  unfold psfPeaks
  rw [List.getD_eq_getElem?_getD, List.getElem?_map, List.getElem?_range hs]
  rfl

/-- C13. `findPeak` on an all-zero image of any length `n` (`n = 0` included) returns
`maxVal = 0` and `maxPos = 0`; in particular the anchor recorded for an all-zero PSF is
index `0`. -/
theorem findPeak_all_zero (n : Nat) :
    findPeak (List.replicate n 0) = (0, 0) ∧
      ∀ (n_scale s : Nat) (psf : List (List ℚ)), s < n_scale →
        psf.getD s [] = List.replicate n 0 → (psfPeaks n_scale psf).getD s 0 = 0 := by
  have h0 : findPeak (List.replicate n 0) = (0, 0) :=
    findPeak_eq_zero_of_all_zero (getD_replicate_zero n)
  refine ⟨h0, ?_⟩
  intro n_scale s psf hs hpsf
  rw [getD_psfPeaks psf hs, hpsf, h0]

theorem findPeak_all_zero_witness :
    findPeak (List.replicate 3 0) = (0, 0) ∧
      (psfPeaks 2 [[1, 0, 0], List.replicate 3 0]).getD 1 0 = 0 :=
  ⟨(findPeak_all_zero 3).1,
    (findPeak_all_zero 3).2 2 1 [[1, 0, 0], List.replicate 3 0] (by decide) rfl⟩

/-- C14. `findPeak` on a single-spike image returns the spike: if `image[k] = v ≠ 0` and
every other sample is `0`, then `maxVal = v`, with its sign, and `maxPos = k`. -/
theorem findPeak_single_spike (image : List ℚ) (k : Nat) (v : ℚ) (hk : k < image.length)
    (hv : v ≠ 0) (hkv : image.getD k 0 = v) (h0 : ∀ i, i ≠ k → image.getD i 0 = 0) :
    findPeak image = (v, k) := by
  apply findPeak_eq_of_first_greatest hk hkv hv
  · intro i hi
    rw [h0 i (Nat.ne_of_lt hi), abs_zero]
    exact abs_pos.mpr hv
  · intro i _
    by_cases hik : i = k
    · rw [hik, hkv]
    · rw [h0 i hik, abs_zero]
      exact abs_nonneg _

theorem findPeak_single_spike_witness : findPeak [0, 0, -7, 0] = (-7, 2) :=
  findPeak_single_spike [0, 0, -7, 0] 2 (-7) (by decide) (by decide) (by decide)
    (by
      intro i hi
      match i with
      | 0 => rfl
      | 1 => rfl
      | 2 => exact absurd rfl hi
      | 3 => rfl
      | (n + 4) => rfl)


/-! ## The state of the major loop -/

theorem deconvolve_succ (n_scale k : Nat) (g thr : ℚ) (dirty : List ℚ) (W : Nat)
    (psf : List (List ℚ)) (P : Nat) (cross : List (List ℚ)) (cw : Nat) (model : List ℚ)
    (residual : List (List ℚ)) :
    deconvolve n_scale (k + 1) g thr dirty W psf P cross cw model residual =
      iterate n_scale g thr W psf P cross cw (psfPeaks n_scale psf)
        (deconvolve n_scale k g thr dirty W psf P cross cw model residual) := by
  unfold deconvolve
  rw [Function.iterate_succ_apply']

theorem length_foldl_set (F : Nat → List ℚ → List ℚ) (l : List Nat) :
    ∀ res : List (List ℚ),
      (l.foldl (fun r t => r.set t (F t (r.getD t []))) res).length = res.length := by
  induction l with
  | nil => intro res; rfl
  | cons t l ih =>
    intro res
    rw [List.foldl_cons, ih]
    simp

theorem length_initResiduals (n_scale : Nat) (dirty : List ℚ) (residual : List (List ℚ)) :
    (initResiduals n_scale dirty residual).length = residual.length :=
  length_foldl_set (fun _ _ => dirty) (List.range n_scale) residual

theorem getD_initResiduals {n_scale s : Nat} (dirty : List ℚ) {residual : List (List ℚ)}
    (hs : s < n_scale) (hlen : n_scale ≤ residual.length) :
    (initResiduals n_scale dirty residual).getD s [] = dirty := by
  have h := getD_foldl_set (fun _ _ => dirty) (List.range n_scale) residual s
    (List.nodup_range _) (lt_of_lt_of_le hs hlen)
  rw [if_pos (List.mem_range.mpr hs)] at h
  exact h

theorem length_updateResiduals (n_scale : Nat) (cross : List (List ℚ))
    (crossWidth dirtyWidth : Nat) (psfPeakPos : List Nat) (g : ℚ) (sel : PeakSel)
    (residual : List (List ℚ)) :
    (updateResiduals n_scale cross crossWidth dirtyWidth psfPeakPos g sel residual).length =
      residual.length :=
  length_foldl_set (fun t r => subtractPSF (cross.getD (sel.absPeakScale * n_scale + t) [])
    crossWidth r dirtyWidth sel.absPeakPos (psfPeakPos.getD t 0) sel.absPeakVal g)
    (List.range n_scale) residual

/-- The lengths of the model, of the residual array and of every residual are those of the
model, of the caller's array and of the dirty image after any number of iterations. -/
theorem deconvolve_lengths (n_scale k : Nat) (g thr : ℚ) (dirty : List ℚ) (W : Nat)
    (psf : List (List ℚ)) (P : Nat) (cross : List (List ℚ)) (cw : Nat) (model : List ℚ)
    (residual : List (List ℚ)) (hlen : n_scale ≤ residual.length) :
    (deconvolve n_scale k g thr dirty W psf P cross cw model residual).1.length
        = model.length ∧
      (deconvolve n_scale k g thr dirty W psf P cross cw model residual).2.length
        = residual.length ∧
      ∀ s, s < n_scale →
        ((deconvolve n_scale k g thr dirty W psf P cross cw model residual).2.getD s []).length
          = dirty.length := by
  induction k with
  | zero =>
    refine ⟨rfl, length_initResiduals _ _ _, ?_⟩
    intro s hs
    show ((initResiduals n_scale dirty residual).getD s []).length = dirty.length
    rw [getD_initResiduals dirty hs hlen]
  | succ k ih =>
    obtain ⟨h1, h2, h3⟩ := ih
    rw [deconvolve_succ]
    refine ⟨?_, ?_, ?_⟩
    · show (subtractPSF _ _ _ _ _ _ _ _).length = _
      rw [length_subtractPSF, h1]
    · show (updateResiduals _ _ _ _ _ _ _ _).length = _
      rw [length_updateResiduals, h2]
    · intro s hs
      show ((updateResiduals _ _ _ _ _ _ _ _).getD s []).length = _
      rw [getD_updateResiduals _ _ _ _ _ _ _ _ s hs (by rw [h2]; exact hlen),
        length_subtractPSF, h3 s hs]

/-- C12. Initialisation of the residuals: with iteration bound `0`, `deconvolve` returns
the model unchanged and `residual[s] = dirty` for every `s < n_scale`, whatever the
`n_scale` residual buffers held before; the read-only inputs are not part of the result. -/
theorem deconvolve_zero_iterations (n_scale : Nat) (g thr : ℚ) (dirty : List ℚ) (W : Nat)
    (psf : List (List ℚ)) (P : Nat) (cross : List (List ℚ)) (cw : Nat) (model : List ℚ)
    (residual : List (List ℚ)) (hlen : n_scale ≤ residual.length) :
    (deconvolve n_scale 0 g thr dirty W psf P cross cw model residual).1 = model ∧
      (deconvolve n_scale 0 g thr dirty W psf P cross cw model residual).2.length
        = residual.length ∧
      ∀ s, s < n_scale →
        (deconvolve n_scale 0 g thr dirty W psf P cross cw model residual).2.getD s []
          = dirty := by
  refine ⟨rfl, length_initResiduals _ _ _, ?_⟩
  intro s hs
  exact getD_initResiduals dirty hs hlen

theorem deconvolve_zero_iterations_witness :
    (deconvolve 2 0 (1 / 2) 0 [1, 2, 3, 4] 2 [[1], [1]] 1 [[1], [1], [1], [1]] 1
        [0, 0, 0, 0] [[9], [8, 7]]).1 = [0, 0, 0, 0] ∧
      (deconvolve 2 0 (1 / 2) 0 [1, 2, 3, 4] 2 [[1], [1]] 1 [[1], [1], [1], [1]] 1
        [0, 0, 0, 0] [[9], [8, 7]]).2.length = ([[9], [8, 7]] : List (List ℚ)).length ∧
      ∀ s, s < 2 →
        (deconvolve 2 0 (1 / 2) 0 [1, 2, 3, 4] 2 [[1], [1]] 1 [[1], [1], [1], [1]] 1
          [0, 0, 0, 0] [[9], [8, 7]]).2.getD s [] = [1, 2, 3, 4] :=
  deconvolve_zero_iterations 2 (1 / 2) 0 [1, 2, 3, 4] 2 [[1], [1]] 1 [[1], [1], [1], [1]] 1
    [0, 0, 0, 0] [[9], [8, 7]] (by decide)

/-- C15. Dimension invariant: for a dirty image and a model of length `W * W`, after any
number of iterations the model has length `W * W` and so has every residual `s < n_scale`. -/
theorem deconvolve_preserves_dimensions (n_scale g_niters : Nat) (g thr : ℚ)
    (dirty : List ℚ) (W : Nat) (psf : List (List ℚ)) (P : Nat) (cross : List (List ℚ))
    (model : List ℚ) (residual : List (List ℚ)) (hd : dirty.length = W * W)
    (hm : model.length = W * W) (hlen : n_scale ≤ residual.length) :
    (deconvolve n_scale g_niters g thr dirty W psf P cross P model residual).1.length
        = W * W ∧
      ∀ s, s < n_scale →
        ((deconvolve n_scale g_niters g thr dirty W psf P cross P model residual).2.getD
          s []).length = W * W := by
  obtain ⟨h1, _, h3⟩ :=
    deconvolve_lengths n_scale g_niters g thr dirty W psf P cross P model residual hlen
  exact ⟨h1.trans hm, fun s hs => (h3 s hs).trans hd⟩

theorem deconvolve_preserves_dimensions_witness :
    (deconvolve 2 3 (1 / 2) 0 [1, 2, 3, 4] 2 [[1], [1]] 1 [[1], [1], [1], [1]] 1
        [0, 0, 0, 0] [[], []]).1.length = 2 * 2 ∧
      ∀ s, s < 2 →
        ((deconvolve 2 3 (1 / 2) 0 [1, 2, 3, 4] 2 [[1], [1]] 1 [[1], [1], [1], [1]] 1
          [0, 0, 0, 0] [[], []]).2.getD s []).length = 2 * 2 :=
  deconvolve_preserves_dimensions 2 3 (1 / 2) 0 [1, 2, 3, 4] 2 [[1], [1]] 1
    [[1], [1], [1], [1]] [0, 0, 0, 0] [[], []] (by decide) (by decide) (by decide)


/-! ## The scale scan: general properties -/

/-- A property of the initial selection and of every per-scale candidate holds of the
selection returned by the scan. -/
theorem scanScales_prop (Q : PeakSel → Prop) (thr : ℚ) (res : List (List ℚ)) :
    ∀ (l : List Nat) (sel : PeakSel), Q sel →
      (∀ s, s ∈ l → Q ⟨(findPeak (res.getD s [])).1, (findPeak (res.getD s [])).2, s⟩) →
      Q (scanScales thr res l sel) := by
  intro l
  induction l with
  | nil => intro sel h _; exact h
  | cons s rest ih =>
    intro sel h hl
    have h1 : Q (if (findPeak (res.getD s [])).1 > sel.absPeakVal
        then ⟨(findPeak (res.getD s [])).1, (findPeak (res.getD s [])).2, s⟩ else sel) := by
      split
      · exact hl s (List.mem_cons_self _ _)
      · exact h
    simp only [scanScales]
    generalize (if (findPeak (res.getD s [])).1 > sel.absPeakVal
        then (⟨(findPeak (res.getD s [])).1, (findPeak (res.getD s [])).2, s⟩ : PeakSel)
        else sel) = sel1 at h1 ⊢
    split
    · exact h1
    · exact ih _ h1 (fun t ht => hl t (List.mem_cons_of_mem _ ht))

/-- A scan in which no scale exceeds the running value returns the selection unchanged. -/
theorem scanScales_no_update (thr : ℚ) (res : List (List ℚ)) :
    ∀ (l : List Nat) (sel : PeakSel),
      (∀ s, s ∈ l → (findPeak (res.getD s [])).1 ≤ sel.absPeakVal) →
      scanScales thr res l sel = sel := by
  intro l
  induction l with
  | nil => intro sel _; rfl
  | cons s rest ih =>
    intro sel hl
    have hs : ¬ (findPeak (res.getD s [])).1 > sel.absPeakVal :=
      not_lt.mpr (hl s (List.mem_cons_self _ _))
    simp only [scanScales, if_neg hs]
    split
    · rfl
    · exact ih sel (fun t ht => hl t (List.mem_cons_of_mem _ ht))

/-- The state of the scan before scale `i`, when every per-scale peak is positive and at
or above the threshold: nothing selected yet at `i = 0`, afterwards the first greatest
peak among the scales below `i`. -/
theorem scanScales_first_max (thr : ℚ) (res : List (List ℚ)) (n : Nat)
    (hpos : ∀ s, s < n → 0 < (findPeak (res.getD s [])).1)
    (hthr : ∀ s, s < n → thr ≤ (findPeak (res.getD s [])).1) :
    ∀ (m i : Nat) (sel : PeakSel), i + m = n →
      ((i = 0 ∧ sel = ⟨0, 0, 0⟩) ∨
        (sel.absPeakScale < i ∧
          sel.absPeakVal = (findPeak (res.getD sel.absPeakScale [])).1 ∧
          sel.absPeakPos = (findPeak (res.getD sel.absPeakScale [])).2 ∧
          (∀ s, s < i → (findPeak (res.getD s [])).1 ≤ sel.absPeakVal) ∧
          (∀ s, s < sel.absPeakScale → (findPeak (res.getD s [])).1 < sel.absPeakVal))) →
      ((n = 0 ∧ scanScales thr res (List.range' i m) sel = ⟨0, 0, 0⟩) ∨
        ((scanScales thr res (List.range' i m) sel).absPeakScale < n ∧
          (scanScales thr res (List.range' i m) sel).absPeakVal =
            (findPeak (res.getD (scanScales thr res (List.range' i m) sel).absPeakScale [])).1 ∧
          (scanScales thr res (List.range' i m) sel).absPeakPos =
            (findPeak (res.getD (scanScales thr res (List.range' i m) sel).absPeakScale [])).2 ∧
          (∀ s, s < n →
            (findPeak (res.getD s [])).1 ≤
              (scanScales thr res (List.range' i m) sel).absPeakVal) ∧
          (∀ s, s < (scanScales thr res (List.range' i m) sel).absPeakScale →
            (findPeak (res.getD s [])).1 <
              (scanScales thr res (List.range' i m) sel).absPeakVal))) := by
  intro m
  induction m with
  | zero =>
    intro i sel hi h
    have hin : i = n := by omega
    subst hin
    simp only [List.range'_zero, scanScales]
    rcases h with ⟨h0, hsel⟩ | h
    · exact Or.inl ⟨h0, hsel⟩
    · exact Or.inr h
  | succ m ih =>
    intro i sel hi h
    have hin : i < n := by omega
    rw [List.range'_succ]
    simp only [scanScales]
    have hinv : (fun sel1 : PeakSel =>
        (sel1.absPeakScale < i + 1 ∧
          sel1.absPeakVal = (findPeak (res.getD sel1.absPeakScale [])).1 ∧
          sel1.absPeakPos = (findPeak (res.getD sel1.absPeakScale [])).2 ∧
          (∀ s, s < i + 1 → (findPeak (res.getD s [])).1 ≤ sel1.absPeakVal) ∧
          (∀ s, s < sel1.absPeakScale → (findPeak (res.getD s [])).1 < sel1.absPeakVal)))
        (if (findPeak (res.getD i [])).1 > sel.absPeakVal
          then ⟨(findPeak (res.getD i [])).1, (findPeak (res.getD i [])).2, i⟩ else sel) := by
      rcases h with ⟨h0, hsel⟩ | ⟨h1, h2, h3, h4, h5⟩
      · subst h0 hsel
        rw [if_pos (hpos 0 hin)]
        refine ⟨Nat.lt_succ_self 0, rfl, rfl, ?_, ?_⟩
        · intro s hs
          have : s = 0 := by omega
          subst this
          exact le_refl _
        · intro s hs
          exact absurd hs (Nat.not_lt_zero s)
      · split
        · rename_i hgt
          refine ⟨Nat.lt_succ_self i, rfl, rfl, ?_, ?_⟩
          · intro s hs
            rcases Nat.lt_succ_iff_lt_or_eq.mp hs with hlt | heq
            · exact le_trans (h4 s hlt) hgt.le
            · rw [heq]
          · intro s hs
            exact lt_of_le_of_lt (h4 s hs) hgt
        · rename_i hle
          refine ⟨Nat.lt_succ_of_lt h1, h2, h3, ?_, h5⟩
          intro s hs
          rcases Nat.lt_succ_iff_lt_or_eq.mp hs with hlt | heq
          · exact h4 s hlt
          · rw [heq]; exact not_lt.mp hle
    have hnb : ¬ |(if (findPeak (res.getD i [])).1 > sel.absPeakVal
        then (⟨(findPeak (res.getD i [])).1, (findPeak (res.getD i [])).2, i⟩ : PeakSel)
        else sel).absPeakVal| < thr := by
      obtain ⟨h1, h2, -, -, -⟩ := hinv
      have hlt : (if (findPeak (res.getD i [])).1 > sel.absPeakVal
          then (⟨(findPeak (res.getD i [])).1, (findPeak (res.getD i [])).2, i⟩ : PeakSel)
          else sel).absPeakScale < n := by omega
      rw [h2, abs_of_pos (hpos _ hlt)]
      exact not_lt.mpr (hthr _ hlt)
    rw [if_neg hnb]
    exact ih (i + 1) _ (by omega) (Or.inr hinv)

/-- C16. Tie-break of the global peak selection: when every per-scale peak is positive and
at or above the threshold, the scan selects the `findPeak` result of the lowest scale whose
peak value attains the maximum; no scale before it reaches that value, so an equal later
peak never replaces it. -/
theorem selectPeak_lowest_scale_of_max (n_scale : Nat) (thr : ℚ) (residual : List (List ℚ))
    (hn : 2 ≤ n_scale)
    (hpos : ∀ s, s < n_scale → 0 < (findPeak (residual.getD s [])).1)
    (hthr : ∀ s, s < n_scale → thr ≤ (findPeak (residual.getD s [])).1) :
    (selectPeak n_scale thr residual).absPeakScale < n_scale ∧
      (selectPeak n_scale thr residual).absPeakVal =
        (findPeak (residual.getD (selectPeak n_scale thr residual).absPeakScale [])).1 ∧
      (selectPeak n_scale thr residual).absPeakPos =
        (findPeak (residual.getD (selectPeak n_scale thr residual).absPeakScale [])).2 ∧
      (∀ s, s < n_scale →
        (findPeak (residual.getD s [])).1 ≤ (selectPeak n_scale thr residual).absPeakVal) ∧
      (∀ s, s < (selectPeak n_scale thr residual).absPeakScale →
        (findPeak (residual.getD s [])).1 < (selectPeak n_scale thr residual).absPeakVal) := by
  have h := scanScales_first_max thr residual n_scale hpos hthr n_scale 0 ⟨0, 0, 0⟩
    (Nat.zero_add _) (Or.inl ⟨rfl, rfl⟩)
  rw [← List.range_eq_range'] at h
  rcases h with ⟨h0, _⟩ | h
  · omega
  · exact h

theorem selectPeak_lowest_scale_of_max_witness :
    (selectPeak 3 1 [[2, 5], [7, 1], [-3, 7]]).absPeakScale < 3 ∧
      (selectPeak 3 1 [[2, 5], [7, 1], [-3, 7]]).absPeakVal =
        (findPeak (([[2, 5], [7, 1], [-3, 7]] : List (List ℚ)).getD
          (selectPeak 3 1 [[2, 5], [7, 1], [-3, 7]]).absPeakScale [])).1 ∧
      (selectPeak 3 1 [[2, 5], [7, 1], [-3, 7]]).absPeakPos =
        (findPeak (([[2, 5], [7, 1], [-3, 7]] : List (List ℚ)).getD
          (selectPeak 3 1 [[2, 5], [7, 1], [-3, 7]]).absPeakScale [])).2 ∧
      (∀ s, s < 3 →
        (findPeak (([[2, 5], [7, 1], [-3, 7]] : List (List ℚ)).getD s [])).1 ≤
          (selectPeak 3 1 [[2, 5], [7, 1], [-3, 7]]).absPeakVal) ∧
      (∀ s, s < (selectPeak 3 1 [[2, 5], [7, 1], [-3, 7]]).absPeakScale →
        (findPeak (([[2, 5], [7, 1], [-3, 7]] : List (List ℚ)).getD s [])).1 <
          (selectPeak 3 1 [[2, 5], [7, 1], [-3, 7]]).absPeakVal) :=
  selectPeak_lowest_scale_of_max 3 1 [[2, 5], [7, 1], [-3, 7]] (by decide)
    (by
      intro s hs
      interval_cases s <;> decide)
    (by
      intro s hs
      interval_cases s <;> decide)


/-! ## Iterations that select the value `0` -/

theorem subtractStep_val_zero (psf : List ℚ) (g : ℚ) (res : List ℚ) (a : Nat × Nat) :
    subtractStep psf 0 g res a = res := by
  have h := subtractStep_gain_zero psf 0 res a
  unfold subtractStep at h ⊢
  rw [mul_zero, zero_mul] at h ⊢
  exact h

theorem subtractPSF_val_zero (psf : List ℚ) (P : Nat) (target : List ℚ)
    (W peakPos psfPeakPos : Nat) (g : ℚ) :
    subtractPSF psf P target W peakPos psfPeakPos 0 g = target := by
  unfold subtractPSF
  generalize subtractPSFAccesses P W peakPos psfPeakPos = acc
  induction acc with
  | nil => rfl
  | cons a acc ih => rw [List.foldl_cons, subtractStep_val_zero, ih]

theorem set_getD_self (l : List (List ℚ)) (s : Nat) : l.set s (l.getD s []) = l := by
  apply List.ext_getElem?
  intro i
  by_cases h : s = i
  · subst h
    by_cases hl : s < l.length
    · simp [List.getElem?_set, hl, List.getD_eq_getElem?_getD]
    · simp [List.getElem?_set, hl, List.getElem?_eq_none (not_lt.mp hl)]
  · simp [List.getElem?_set, h]

theorem updateResiduals_val_zero (n_scale : Nat) (cross : List (List ℚ))
    (crossWidth dirtyWidth : Nat) (psfPeakPos : List Nat) (g : ℚ) (sel : PeakSel)
    (residual : List (List ℚ)) (h0 : sel.absPeakVal = 0) :
    updateResiduals n_scale cross crossWidth dirtyWidth psfPeakPos g sel residual
      = residual := by
  unfold updateResiduals
  rw [h0]
  generalize List.range n_scale = l
  induction l generalizing residual with
  | nil => rfl
  | cons t l ih => rw [List.foldl_cons, subtractPSF_val_zero, set_getD_self, ih]

/-- An iteration whose selected value is `0` changes neither the model nor any residual. -/
theorem iterate_val_zero (n_scale : Nat) (g thr : ℚ) (W : Nat) (psf : List (List ℚ))
    (P : Nat) (cross : List (List ℚ)) (cw : Nat) (psfPeakPos : List Nat)
    (st : List ℚ × List (List ℚ)) (h0 : (selectPeak n_scale thr st.2).absPeakVal = 0) :
    iterate n_scale g thr W psf P cross cw psfPeakPos st = st := by
  unfold iterate
  simp only
  rw [updateResiduals_val_zero _ _ _ _ _ _ _ _ h0, h0, neg_zero, subtractPSF_val_zero]

/-- When the peak of the dirty image is not positive, no iteration selects anything and
the state stays the initial one. -/
theorem deconvolve_of_nonpos_peak (n_scale k : Nat) (g thr : ℚ) (dirty : List ℚ) (W : Nat)
    (psf : List (List ℚ)) (P : Nat) (cross : List (List ℚ)) (cw : Nat) (model : List ℚ)
    (residual : List (List ℚ)) (hlen : n_scale ≤ residual.length)
    (hneg : (findPeak dirty).1 ≤ 0) :
    deconvolve n_scale k g thr dirty W psf P cross cw model residual =
        (model, initResiduals n_scale dirty residual) ∧
      selectPeak n_scale thr
        (deconvolve n_scale k g thr dirty W psf P cross cw model residual).2 = ⟨0, 0, 0⟩ := by
  have hsel : selectPeak n_scale thr (initResiduals n_scale dirty residual) = ⟨0, 0, 0⟩ := by
    apply scanScales_no_update
    intro s hs
    rw [getD_initResiduals dirty (List.mem_range.mp hs) hlen]
    exact hneg
  induction k with
  | zero => exact ⟨rfl, hsel⟩
  | succ k ih =>
    have hst : deconvolve n_scale (k + 1) g thr dirty W psf P cross cw model residual =
        (model, initResiduals n_scale dirty residual) := by
      rw [deconvolve_succ, ih.1]
      apply iterate_val_zero
      show (selectPeak n_scale thr (initResiduals n_scale dirty residual)).absPeakVal = 0
      rw [hsel]
    rw [hst]
    exact ⟨rfl, hsel⟩

/-- C18. A dirty image whose first greatest-magnitude sample is negative is never cleaned:
every iteration selects value `0` at position `0` on scale `0`, the model is returned
unchanged and every residual `s < n_scale` equals the dirty image. -/
theorem deconvolve_negative_peak_not_cleaned (n_scale g_niters : Nat) (g thr : ℚ)
    (dirty : List ℚ) (W : Nat) (psf : List (List ℚ)) (P : Nat) (cross : List (List ℚ))
    (cw : Nat) (model : List ℚ) (residual : List (List ℚ))
    (hlen : n_scale ≤ residual.length) (hneg : (findPeak dirty).1 < 0) :
    (∀ k, selectedPeak n_scale k g thr dirty W psf P cross cw model residual = ⟨0, 0, 0⟩) ∧
      (deconvolve n_scale g_niters g thr dirty W psf P cross cw model residual).1 = model ∧
      ∀ s, s < n_scale →
        (deconvolve n_scale g_niters g thr dirty W psf P cross cw model residual).2.getD s []
          = dirty := by
  refine ⟨?_, ?_, ?_⟩
  · intro k
    exact (deconvolve_of_nonpos_peak n_scale k g thr dirty W psf P cross cw model residual
      hlen hneg.le).2
  · rw [(deconvolve_of_nonpos_peak n_scale g_niters g thr dirty W psf P cross cw model
      residual hlen hneg.le).1]
  · intro s hs
    rw [(deconvolve_of_nonpos_peak n_scale g_niters g thr dirty W psf P cross cw model
      residual hlen hneg.le).1]
    exact getD_initResiduals dirty hs hlen

theorem deconvolve_negative_peak_not_cleaned_witness :
    (∀ k, selectedPeak 2 k (1 / 2) 0 [1, -4, 2, 3] 2 [[1], [1]] 1 [[1], [1], [1], [1]] 1
        [0, 0, 0, 0] [[], []] = ⟨0, 0, 0⟩) ∧
      (deconvolve 2 5 (1 / 2) 0 [1, -4, 2, 3] 2 [[1], [1]] 1 [[1], [1], [1], [1]] 1
        [0, 0, 0, 0] [[], []]).1 = [0, 0, 0, 0] ∧
      ∀ s, s < 2 →
        (deconvolve 2 5 (1 / 2) 0 [1, -4, 2, 3] 2 [[1], [1]] 1 [[1], [1], [1], [1]] 1
          [0, 0, 0, 0] [[], []]).2.getD s [] = [1, -4, 2, 3] :=
  deconvolve_negative_peak_not_cleaned 2 5 (1 / 2) 0 [1, -4, 2, 3] 2 [[1], [1]] 1
    [[1], [1], [1], [1]] 1 [0, 0, 0, 0] [[], []] (by decide) (by decide)


/-! ## Model and residual in the single-scale case -/

theorem foldl_subtractStep_sum (psf : List ℚ) (v g : ℚ) (acc : List (Nat × Nat)) :
    ∀ (m r : List ℚ), m.length = r.length → ∀ i,
      (acc.foldl (subtractStep psf (-v) g) m).getD i 0 +
          (acc.foldl (subtractStep psf v g) r).getD i 0 =
        m.getD i 0 + r.getD i 0 := by
  induction acc with
  | nil => intro m r _ i; rfl
  | cons a acc ih =>
    intro m r hlen i
    rw [List.foldl_cons, List.foldl_cons,
      ih _ _ (by simp [subtractStep, hlen]) i]
    unfold subtractStep
    rw [getD_set_eq, getD_set_eq, hlen]
    split
    · rename_i h
      rw [h.1]
      ring
    · rfl

theorem subtractPSF_sum (psf : List ℚ) (P : Nat) (m r : List ℚ) (W peakPos psfPeakPos : Nat)
    (v g : ℚ) (hlen : m.length = r.length) (i : Nat) :
    (subtractPSF psf P m W peakPos psfPeakPos (-v) g).getD i 0 +
        (subtractPSF psf P r W peakPos psfPeakPos v g).getD i 0 =
      m.getD i 0 + r.getD i 0 :=
  foldl_subtractStep_sum psf v g _ m r hlen i

theorem selectPeak_one_scale (thr : ℚ) (res : List (List ℚ)) :
    (selectPeak 1 thr res).absPeakScale = 0 := by
  apply scanScales_prop (fun sel => sel.absPeakScale = 0) thr res _ _ rfl
  intro s hs
  have : s < 1 := List.mem_range.mp hs
  show s = 0
  omega

/-- C19. Flux conservation in the single-scale case: with one scale, `crossWidth =
psfWidth`, `cross[0] = psf[0]` and a model that is zero on entry, after any number of
iterations `model[i] + residual[0][i] = dirty[i]` for every `i < W * W`. -/
theorem deconvolve_flux_conserved (g_niters : Nat) (g thr : ℚ) (dirty : List ℚ) (W : Nat)
    (psf : List (List ℚ)) (P : Nat) (cross : List (List ℚ)) (residual : List (List ℚ))
    (hd : dirty.length = W * W) (hres : 1 ≤ residual.length)
    (hcross : cross.getD 0 [] = psf.getD 0 []) (i : Nat) (_hi : i < W * W) :
    (deconvolve 1 g_niters g thr dirty W psf P cross P (List.replicate (W * W) 0)
          residual).1.getD i 0 +
        ((deconvolve 1 g_niters g thr dirty W psf P cross P (List.replicate (W * W) 0)
          residual).2.getD 0 []).getD i 0 =
      dirty.getD i 0 := by
  induction g_niters with
  | zero =>
    show (List.replicate (W * W) (0 : ℚ)).getD i 0 +
      ((initResiduals 1 dirty residual).getD 0 []).getD i 0 = dirty.getD i 0
    rw [getD_initResiduals dirty Nat.zero_lt_one hres, getD_replicate_zero, zero_add]
  | succ k ih =>
    obtain ⟨h1, h2, h3⟩ := deconvolve_lengths 1 k g thr dirty W psf P cross P
      (List.replicate (W * W) 0) residual hres
    rw [deconvolve_succ]
    generalize deconvolve 1 k g thr dirty W psf P cross P (List.replicate (W * W) 0) residual
      = st at ih h1 h2 h3
    unfold iterate
    simp only
    rw [getD_updateResiduals 1 cross P W _ g _ st.2 0 Nat.zero_lt_one (by rw [h2]; exact hres),
      selectPeak_one_scale, Nat.zero_mul, Nat.zero_add, hcross,
      subtractPSF_sum _ _ _ _ _ _ _ _ _
        (by rw [h1, h3 0 Nat.zero_lt_one, hd, List.length_replicate]) i]
    exact ih

theorem deconvolve_flux_conserved_witness :
    (deconvolve 1 3 (1 / 2) 0 [1, 5, 2, 3] 2 [[1, 2, 3, 4]] 2 [[1, 2, 3, 4]] 2
          (List.replicate (2 * 2) 0) [[]]).1.getD 1 0 +
        ((deconvolve 1 3 (1 / 2) 0 [1, 5, 2, 3] 2 [[1, 2, 3, 4]] 2 [[1, 2, 3, 4]] 2
          (List.replicate (2 * 2) 0) [[]]).2.getD 0 []).getD 1 0 =
      ([1, 5, 2, 3] : List ℚ).getD 1 0 :=
  deconvolve_flux_conserved 3 (1 / 2) 0 [1, 5, 2, 3] 2 [[1, 2, 3, 4]] 2 [[1, 2, 3, 4]]
    [[]] (by decide) (by decide) (by decide) 1 (by decide)

/-- The scan returns what a scan restricted to the scales it examined returns, and these
scales are an initial segment of the scales offered. -/
theorem scanScales_scannedScales (thr : ℚ) (res : List (List ℚ)) :
    ∀ (l : List Nat) (sel : PeakSel),
      scanScales thr res (scannedScales thr res l sel) sel = scanScales thr res l sel ∧
        scannedScales thr res l sel <+: l := by
  intro l
  induction l with
  | nil => intro sel; exact ⟨rfl, List.prefix_refl _⟩
  | cons s rest ih =>
    intro sel
    simp only [scannedScales, scanScales]
    generalize hsel1 : (if (findPeak (res.getD s [])).1 > sel.absPeakVal
        then (⟨(findPeak (res.getD s [])).1, (findPeak (res.getD s [])).2, s⟩ : PeakSel)
        else sel) = sel1
    by_cases hb : |sel1.absPeakVal| < thr
    · simp only [if_pos hb, scanScales, hsel1]
      exact ⟨trivial, by simp⟩
    · simp only [if_neg hb, scanScales, hsel1]
      exact ⟨(ih sel1).1, (List.prefix_cons_inj s).mpr (ih sel1).2⟩

/-- C17. The threshold is tested inside the scale scan and can hide the genuine maximum:
with two scales, dirty image `[10]`, `psf[0] = psf[1] = cross[0] = [1]`, `cross[1] = [0]`,
gain `1` and threshold `1/1000`, the first iteration leaves the residuals `[0]` and `[10]`;
the scan of the second iteration examines scale `0` only, because the running value `0` is
below the threshold, and selects `(0, 0, 0)` although residual `1` holds the sample `10`. -/
theorem threshold_hides_maximum :
    (deconvolve 2 1 1 (1 / 1000) [10] 1 [[1], [1]] 1 [[1], [0], [1], [1]] 1 [0]
        [[], []]).2 = [[0], [10]] ∧
      scannedScales (1 / 1000)
        (deconvolve 2 1 1 (1 / 1000) [10] 1 [[1], [1]] 1 [[1], [0], [1], [1]] 1 [0]
          [[], []]).2 (List.range 2) ⟨0, 0, 0⟩ = [0] ∧
      selectedPeak 2 1 1 (1 / 1000) [10] 1 [[1], [1]] 1 [[1], [0], [1], [1]] 1 [0] [[], []]
        = ⟨0, 0, 0⟩ ∧
      |(selectedPeak 2 1 1 (1 / 1000) [10] 1 [[1], [1]] 1 [[1], [0], [1], [1]] 1 [0]
        [[], []]).absPeakVal| < 1 / 1000 ∧
      (1 : ℚ) / 1000 ≤ |(findPeak ((deconvolve 2 1 1 (1 / 1000) [10] 1 [[1], [1]] 1
        [[1], [0], [1], [1]] 1 [0] [[], []]).2.getD 1 [])).1| ∧
      |(selectedPeak 2 1 1 (1 / 1000) [10] 1 [[1], [1]] 1 [[1], [0], [1], [1]] 1 [0]
        [[], []]).absPeakVal| <
        |(findPeak ((deconvolve 2 1 1 (1 / 1000) [10] 1 [[1], [1]] 1
          [[1], [0], [1], [1]] 1 [0] [[], []]).2.getD 1 [])).1| := by
  have hst : (deconvolve 2 1 1 (1 / 1000) [10] 1 [[1], [1]] 1 [[1], [0], [1], [1]] 1 [0]
      [[], []]).2 = [[0], [10]] := by
    with_unfolding_all decide
  unfold selectedPeak
  rw [hst]
  refine ⟨rfl, ?_, ?_, ?_, ?_, ?_⟩ <;> with_unfolding_all decide


/-! ## Ranges of the indices used by the major loop -/

theorem selectPeak_uniform {n_scale : Nat} (thr : ℚ) {res : List (List ℚ)} {r : List ℚ}
    (hn : 0 < n_scale) (hr : ∀ s, s < n_scale → res.getD s [] = r) :
    selectPeak n_scale thr res =
      if 0 < (findPeak r).1 then ⟨(findPeak r).1, (findPeak r).2, 0⟩ else ⟨0, 0, 0⟩ := by
  unfold selectPeak
  split
  · rename_i hpos
    obtain ⟨m, rfl⟩ : ∃ m, n_scale = m + 1 := ⟨n_scale - 1, by omega⟩
    rw [List.range_eq_range', List.range'_succ]
    simp only [scanScales]
    rw [hr 0 hn, if_pos hpos]
    have hrest : scanScales thr res (List.range' (0 + 1) m)
        ⟨(findPeak r).1, (findPeak r).2, 0⟩ = ⟨(findPeak r).1, (findPeak r).2, 0⟩ := by
      apply scanScales_no_update
      intro s hs
      have hs' : s < m + 1 := by
        have := List.mem_range'_1.mp hs
        omega
      rw [hr s hs']
    rw [hrest]
    split <;> rfl
  · rename_i hneg
    apply scanScales_no_update
    intro s hs
    rw [hr s (List.mem_range.mp hs)]
    exact not_lt.mp hneg

theorem findPeak_impulse_nonneg {n k : Nat} {u : ℚ} (hk : k < n) (hu : 0 ≤ u) :
    (findPeak (impulse n k u)).1 = u ∧ (0 < u → (findPeak (impulse n k u)).2 = k) := by
  rcases hu.lt_or_eq with hpos | hzero
  · rw [findPeak_impulse hk hpos.ne']
    exact ⟨rfl, fun _ => rfl⟩
  · subst hzero
    have : findPeak (impulse n k 0) = (0, 0) := by
      apply findPeak_eq_zero_of_all_zero
      intro i
      rw [getD_impulse]
      split <;> rfl
    rw [this]
    exact ⟨rfl, fun h => absurd h (lt_irrefl _)⟩

/-- The residuals of a point source after `k` iterations, when every PSF and cross-term is
the unit impulse at `c`: all equal to the impulse of value `v * (1 - g) ^ k` at `p`. -/
theorem point_source_residuals (n_scale W p c : Nat) (v g thr : ℚ) (psf cross : List (List ℚ))
    (model : List ℚ) (residual : List (List ℚ)) (hn : 0 < n_scale) (hW : 0 < W)
    (hp : p < W * W) (hc : c < W * W) (hv : 0 < v) (hg1 : g ≤ 1)
    (hpsf : ∀ s, s < n_scale → psf.getD s [] = impulse (W * W) c 1)
    (hcross : ∀ j, j < n_scale * n_scale → cross.getD j [] = impulse (W * W) c 1)
    (hlen : n_scale ≤ residual.length) (k : Nat) :
    ∀ s, s < n_scale →
      (deconvolve n_scale k g thr (impulse (W * W) p v) W psf W cross W model residual).2.getD
        s [] = impulse (W * W) p (v * (1 - g) ^ k) := by
  induction k with
  | zero =>
    intro s hs
    show (initResiduals n_scale (impulse (W * W) p v) residual).getD s [] = _
    rw [getD_initResiduals _ hs hlen, pow_zero, mul_one]
  | succ k ih =>
    intro s hs
    obtain ⟨_, h2, _⟩ := deconvolve_lengths n_scale k g thr (impulse (W * W) p v) W psf W
      cross W model residual hlen
    have hu : 0 ≤ v * (1 - g) ^ k := mul_nonneg hv.le (pow_nonneg (by linarith) k)
    obtain ⟨hfv, hfp⟩ := findPeak_impulse_nonneg (n := W * W) hp hu
    rw [deconvolve_succ]
    generalize deconvolve n_scale k g thr (impulse (W * W) p v) W psf W cross W model residual
      = st at ih h2
    unfold iterate
    simp only
    rw [getD_updateResiduals n_scale cross W W _ g _ st.2 s hs (by rw [h2]; exact hlen),
      selectPeak_uniform thr hn ih, ih s hs, getD_psfPeaks psf hs, hpsf s hs,
      findPeak_impulse hc one_ne_zero, hfv]
    have h1 : (impulse (W * W) c 1).getD c 0 = 1 := by rw [getD_impulse, if_pos ⟨rfl, hc⟩]
    have h0 : ∀ i, i ≠ c → (impulse (W * W) c 1).getD i 0 = 0 := by
      intro i hi
      rw [getD_impulse, if_neg (fun h => hi h.1.symm)]
    split
    · rename_i hpos
      simp only
      rw [hfp hpos, Nat.zero_mul, Nat.zero_add,
        hcross s (lt_of_lt_of_le hs (Nat.le_mul_of_pos_left n_scale hn)),
        subtractPSF_unit_impulse _ _ W W p c _ g hW hW (length_impulse _ _ _) hp hc h1 h0,
        getD_impulse, if_pos ⟨rfl, hp⟩]
      unfold impulse
      rw [List.set_set]
      congr 1
      ring
    · rename_i hneg
      simp only
      rw [subtractPSF_val_zero]
      have hz : v * (1 - g) ^ k = 0 := le_antisymm (not_lt.mp hneg) hu
      rw [pow_succ, ← mul_assoc, hz, zero_mul]


theorem getD_replicate_image (n s : Nat) (r : List ℚ) (hs : s < n) :
    (List.replicate n r).getD s [] = r := by
  simp [List.getD_eq_getElem?_getD, hs]

/-- C11. Monotonic decrease for a point source: with a dirty image of one non-zero sample
`v` at `p`, every PSF and cross-term the unit impulse at `c`, and gain `0 < g ≤ 1`, the
magnitude of the peak selected by iteration `k + 2` is at most that of iteration `k + 1`,
for every `k`. -/
theorem point_source_peaks_nonincreasing (n_scale W p c : Nat) (v g thr : ℚ)
    (residual : List (List ℚ)) (hn : 1 ≤ n_scale) (hW : 0 < W) (hp : p < W * W)
    (hc : c < W * W) (hv : v ≠ 0) (hg0 : 0 < g) (hg1 : g ≤ 1)
    (hlen : n_scale ≤ residual.length) (k : Nat) :
    |(selectedPeak n_scale (k + 1) g thr (impulse (W * W) p v) W
        (List.replicate n_scale (impulse (W * W) c 1)) W
        (List.replicate (n_scale * n_scale) (impulse (W * W) c 1)) W
        (List.replicate (W * W) 0) residual).absPeakVal| ≤
      |(selectedPeak n_scale k g thr (impulse (W * W) p v) W
        (List.replicate n_scale (impulse (W * W) c 1)) W
        (List.replicate (n_scale * n_scale) (impulse (W * W) c 1)) W
        (List.replicate (W * W) 0) residual).absPeakVal| := by
  rcases lt_or_gt_of_ne hv with hneg | hpos
  · have hfp : (findPeak (impulse (W * W) p v)).1 ≤ 0 := by
      rw [findPeak_impulse hp hv]
      exact hneg.le
    unfold selectedPeak
    rw [(deconvolve_of_nonpos_peak n_scale (k + 1) g thr _ W _ W _ W _ residual hlen hfp).2,
      (deconvolve_of_nonpos_peak n_scale k g thr _ W _ W _ W _ residual hlen hfp).2]
  · have hval : ∀ j,
        (selectedPeak n_scale j g thr (impulse (W * W) p v) W
          (List.replicate n_scale (impulse (W * W) c 1)) W
          (List.replicate (n_scale * n_scale) (impulse (W * W) c 1)) W
          (List.replicate (W * W) 0) residual).absPeakVal = v * (1 - g) ^ j := by
      intro j
      have hres := point_source_residuals n_scale W p c v g thr
        (List.replicate n_scale (impulse (W * W) c 1))
        (List.replicate (n_scale * n_scale) (impulse (W * W) c 1))
        (List.replicate (W * W) 0) residual hn hW hp hc hpos hg1
        (fun s hs => getD_replicate_image _ _ _ hs)
        (fun s hs => getD_replicate_image _ _ _ hs) hlen j
      have hu : 0 ≤ v * (1 - g) ^ j := mul_nonneg hpos.le (pow_nonneg (by linarith) j)
      unfold selectedPeak
      rw [selectPeak_uniform thr hn hres, (findPeak_impulse_nonneg (n := W * W) hp hu).1]
      split
      · rfl
      · rename_i h
        exact (le_antisymm (not_lt.mp h) hu).symm
    rw [hval (k + 1), hval k, pow_succ, ← mul_assoc, abs_mul]
    have h1 : |1 - g| ≤ 1 := by
      rw [abs_le]
      constructor <;> linarith
    calc |v * (1 - g) ^ k| * |1 - g| ≤ |v * (1 - g) ^ k| * 1 :=
          mul_le_mul_of_nonneg_left h1 (abs_nonneg _)
      _ = |v * (1 - g) ^ k| := mul_one _

theorem point_source_peaks_nonincreasing_witness :
    |(selectedPeak 2 (3 + 1) (1 / 2) (1 / 1000) (impulse (4 * 4) 10 10) 4
        (List.replicate 2 (impulse (4 * 4) 10 1)) 4
        (List.replicate (2 * 2) (impulse (4 * 4) 10 1)) 4
        (List.replicate (4 * 4) 0) [[], []]).absPeakVal| ≤
      |(selectedPeak 2 3 (1 / 2) (1 / 1000) (impulse (4 * 4) 10 10) 4
        (List.replicate 2 (impulse (4 * 4) 10 1)) 4
        (List.replicate (2 * 2) (impulse (4 * 4) 10 1)) 4
        (List.replicate (4 * 4) 0) [[], []]).absPeakVal| :=
  point_source_peaks_nonincreasing 2 4 10 10 10 (1 / 2) (1 / 1000) [[], []] (by decide)
    (by decide) (by decide) (by decide) (by decide) (by with_unfolding_all decide)
    (by with_unfolding_all decide) (by decide) 3


/-! ## Images that fit `int`: the narrowed operations are the exact ones -/

end MultiScaleGolden
